import Mathlib

/-!
Verification of the merapi core (an asynchronous data-fetching cache).

This file gives a shallow embedding, in Lean, of the parts of the source
that the specification's claims talk about:

* the per-entry state machine of `merapi.ts` (`Merapi.dispatch`,
  `getDefaultState`, `Merapi.invalidate`, the concurrency guard of
  `Merapi.fetch`);
* the key utilities of `utils.ts` (`hashMerapiKey`, `partialDeepEqual`,
  `partialMatchKey`, `matchMerapi`, `parseFilterArgs`, `replaceEqualDeep`,
  `replaceData`);
* the cache lookups of `merapi-cache.ts` (`find`) and the client operations
  of `merapi-client.ts` (`getMerapiData`, `ensureMerapiData`);
* `hydrate` of `hydration.ts`.

JavaScript values that flow through these functions are modelled by
inductive JSON-like value types.  Machine integers do not occur (all
arithmetic is on counters and timestamps), so `Nat` is used for counts and
times.  Reference identity (`===`) is modelled where it matters (structural
sharing) by tagging every composite value with an allocation identifier.
-/

set_option maxHeartbeats 1000000

namespace Merapi

/-! ## The entry state machine (`merapi.ts`)

`MerapiState` mirrors the `MerapiState` interface.  TypeScript
`TError | null` fields become `Option E`, `TData | undefined` becomes
`Option D`, and `fetchMeta : any` (which is either `null` or a meta object)
becomes `Option M`.  Timestamps (`Date.now()` values) are `Nat`.
-/

inductive MerapiStatus where
  | loading
  | error
  | success
deriving DecidableEq, Repr

inductive FetchStatus where
  | fetching
  | paused
  | idle
deriving DecidableEq, Repr

structure MerapiState (D E M : Type) where
  data : Option D
  dataUpdateCount : Nat
  dataUpdatedAt : Nat
  error : Option E
  errorUpdateCount : Nat
  errorUpdatedAt : Nat
  fetchFailureCount : Nat
  fetchFailureReason : Option E
  fetchMeta : Option M
  isInvalidated : Bool
  status : MerapiStatus
  fetchStatus : FetchStatus
deriving DecidableEq, Repr

/-- Actions of `Merapi.dispatch`.  The `error` action of the source carries a
possibly-cancelled error object; its `isCancelledError`/`revert` tests are
carried here as the two boolean fields of `errorFail`. -/
inductive MerapiAction (D E M : Type) where
  | failed (failureCount : Nat) (error : E)
  | fetchStart (meta : Option M)
  | success (data : Option D) (dataUpdatedAt : Option Nat) (manual : Bool)
  | errorFail (error : E) (isCancelled : Bool) (revert : Bool)
  | invalidate
  | pauseFetch
  | continueFetch
  | setState (state : MerapiState D E M)

/-- The reducer inside `Merapi.dispatch` (merapi.ts, lines 495-584).
`now` is the value `Date.now()` would return, `canFetchNow` is the value of
`canFetch(this.options.networkMode)` (an environment-dependent boolean:
`retryer.ts` is not among the sources; per the spec it is true except in
`online` mode while offline), and `revertState` is `this.revertState`. -/
def dispatch {D E M : Type} (now : Nat) (canFetchNow : Bool)
    (revertState : Option (MerapiState D E M)) :
    MerapiAction D E M → MerapiState D E M → MerapiState D E M
  | .failed n e, s => { s with fetchFailureCount := n, fetchFailureReason := some e }
  | .pauseFetch, s => { s with fetchStatus := .paused }
  | .continueFetch, s => { s with fetchStatus := .fetching }
  | .fetchStart meta, s =>
    let s1 : MerapiState D E M :=
      { s with
        fetchFailureCount := 0
        fetchFailureReason := none
        fetchMeta := meta
        fetchStatus := if canFetchNow then .fetching else .paused }
    if s.dataUpdatedAt = 0 then { s1 with error := none, status := .loading } else s1
  | .success d t m, s =>
    let s1 : MerapiState D E M :=
      { s with
        data := d
        dataUpdateCount := s.dataUpdateCount + 1
        dataUpdatedAt := t.getD now
        error := none
        isInvalidated := false
        status := .success }
    if m then s1
    else { s1 with fetchStatus := .idle, fetchFailureCount := 0, fetchFailureReason := none }
  | .errorFail e cancelled revert, s =>
    match revertState, cancelled && revert with
    | some r, true => r
    | _, _ =>
      { s with
        error := some e
        errorUpdateCount := s.errorUpdateCount + 1
        errorUpdatedAt := now
        fetchFailureCount := s.fetchFailureCount + 1
        fetchFailureReason := some e
        fetchStatus := .idle
        status := .error }
  | .invalidate, s => { s with isInvalidated := true }
  | .setState st, _ => st

/-- `getDefaultState` (merapi.ts, lines 587-622).  `initialData` is the
resolved value of `options.initialData` (function forms already applied) and
`initialDataUpdatedAt` the resolved `options.initialDataUpdatedAt`. -/
def getDefaultState {D E M : Type} (initialData : Option D)
    (initialDataUpdatedAt : Option Nat) (now : Nat) : MerapiState D E M :=
  let hasData := initialData.isSome
  { data := initialData
    dataUpdateCount := 0
    dataUpdatedAt := if hasData then initialDataUpdatedAt.getD now else 0
    error := none
    errorUpdateCount := 0
    errorUpdatedAt := 0
    fetchFailureCount := 0
    fetchFailureReason := none
    fetchMeta := none
    isInvalidated := false
    status := if hasData then .success else .loading
    fetchStatus := .idle }

/-- `Merapi.invalidate` (merapi.ts, lines 319-323): dispatches the
`invalidate` action only when the state is not already invalidated.  The
returned list records the actions that were dispatched (each dispatch
notifies every observer and the cache listeners once). -/
def invalidateCall {D E M : Type} (s : MerapiState D E M) :
    MerapiState D E M × List (MerapiAction D E M) :=
  if s.isInvalidated then (s, [])
  else (dispatch 0 true none .invalidate s, [.invalidate])

/-! ### C4: the `success` action -/

/-- Claim C4: dispatching `success(data, at?, manual?)` sets `data` to the
action's (already structurally shared) data, increments `dataUpdateCount`,
sets `dataUpdatedAt` to the supplied timestamp or the current time, clears
`error`, clears `isInvalidated`, sets `status = success`; when `manual` is
not set it additionally resets `fetchStatus` to `idle` and clears the fetch
failure fields, and when `manual` is set it leaves those three fields
unchanged. -/
theorem claim4_success_action {D E M : Type} (now : Nat) (cf : Bool)
    (rv : Option (MerapiState D E M)) (s : MerapiState D E M)
    (d : Option D) (t : Option Nat) (m : Bool) :
    let s' := dispatch now cf rv (.success d t m) s
    s'.data = d ∧
    s'.dataUpdateCount = s.dataUpdateCount + 1 ∧
    s'.dataUpdatedAt = t.getD now ∧
    s'.error = none ∧
    s'.isInvalidated = false ∧
    s'.status = .success ∧
    (m = false → s'.fetchStatus = .idle ∧ s'.fetchFailureCount = 0 ∧
      s'.fetchFailureReason = none) ∧
    (m = true → s'.fetchStatus = s.fetchStatus ∧
      s'.fetchFailureCount = s.fetchFailureCount ∧
      s'.fetchFailureReason = s.fetchFailureReason) := by
  cases m <;> simp [dispatch]

/-- Witness for C4 at a concrete state and action. -/
theorem claim4_success_action_witness :
    let s0 : MerapiState Nat Nat Nat := getDefaultState none none 5
    let s' := dispatch 7 true none (.success (some 3) none false) s0
    s'.data = some 3 ∧
    s'.dataUpdateCount = s0.dataUpdateCount + 1 ∧
    s'.dataUpdatedAt = Option.getD none 7 ∧
    s'.error = none ∧
    s'.isInvalidated = false ∧
    s'.status = .success ∧
    (false = false → s'.fetchStatus = .idle ∧ s'.fetchFailureCount = 0 ∧
      s'.fetchFailureReason = none) ∧
    (false = true → s'.fetchStatus = s0.fetchStatus ∧
      s'.fetchFailureCount = s0.fetchFailureCount ∧
      s'.fetchFailureReason = s0.fetchFailureReason) :=
  claim4_success_action 7 true none (getDefaultState none none 5) (some 3) none false

/-! ### C8: idempotence of `invalidate` -/

/-- Claim C8: `Merapi.invalidate` sets `isInvalidated` and is idempotent:
after one call the state is invalidated, a second call returns the same
state and dispatches no action (hence produces no notification). -/
theorem claim8_invalidate_idempotent {D E M : Type} (s : MerapiState D E M) :
    (invalidateCall s).1.isInvalidated = true ∧
    (invalidateCall (invalidateCall s).1).1 = (invalidateCall s).1 ∧
    (invalidateCall (invalidateCall s).1).2 = [] := by
  by_cases h : s.isInvalidated = true <;>
    simp [invalidateCall, dispatch, h]

/-! ### C3: the status invariant

The claim quantifies over "every reachable state".  `GoodInit` describes the
initial states produced by `getDefaultState` under well-formed options
(`Date.now()` is positive, and a user-supplied `initialDataUpdatedAt` is a
positive timestamp), and `GoodStep` the transitions of `dispatch` other than
the external `setState` patch and the cancel-revert path, again with
positive clock values. -/

def goodAction {D E M : Type} (now : Nat) : MerapiAction D E M → Prop
  | .setState _ => False
  | .success _ t _ => 0 < now ∧ ∀ x, t = some x → 0 < x
  | _ => 0 < now

inductive GoodInit {D E M : Type} : MerapiState D E M → Prop
  | mk (initialData : Option D) (t : Option Nat) (now : Nat)
      (hnow : 0 < now) (ht : ∀ x, t = some x → 0 < x) :
      GoodInit (getDefaultState initialData t now)

inductive GoodStep {D E M : Type} : MerapiState D E M → MerapiState D E M → Prop
  | mk (now : Nat) (cf : Bool) (a : MerapiAction D E M) (s : MerapiState D E M)
      (ha : goodAction now a) :
      GoodStep s (dispatch now cf none a s)

def ReachableState {D E M : Type} (s : MerapiState D E M) : Prop :=
  ∃ s0, GoodInit s0 ∧ Relation.ReflTransGen GoodStep s0 s

/-- The inductive invariant that survives all good transitions. -/
def StatusInv {D E M : Type} (s : MerapiState D E M) : Prop :=
  (s.status = .loading ↔ s.dataUpdatedAt = 0 ∧ s.error = none) ∧
  (s.status = .success → 0 < s.dataUpdatedAt)

theorem statusInv_init {D E M : Type} {s : MerapiState D E M}
    (h : GoodInit s) : StatusInv s := by
  rcases h with ⟨d, t, now, hnow, ht⟩
  cases d with
  | none => simp [StatusInv, getDefaultState]
  | some x =>
    cases t with
    | none =>
      simp only [StatusInv, getDefaultState, Option.isSome_some, if_true]
      constructor
      · simp
        omega
      · intro _
        simpa using hnow
    | some y =>
      have hy := ht y rfl
      simp only [StatusInv, getDefaultState, Option.isSome_some, if_true]
      constructor
      · simp
        omega
      · intro _
        simpa using hy

theorem statusInv_step {D E M : Type} {s s' : MerapiState D E M}
    (hs : StatusInv s) (h : GoodStep s s') : StatusInv s' := by
  rcases h with ⟨now, cf, a, s, ha⟩
  obtain ⟨hiff, hsucc⟩ := hs
  cases a with
  | failed n e => exact ⟨by simpa [dispatch] using hiff, by simpa [dispatch] using hsucc⟩
  | pauseFetch => exact ⟨by simpa [dispatch] using hiff, by simpa [dispatch] using hsucc⟩
  | continueFetch => exact ⟨by simpa [dispatch] using hiff, by simpa [dispatch] using hsucc⟩
  | invalidate => exact ⟨by simpa [dispatch] using hiff, by simpa [dispatch] using hsucc⟩
  | fetchStart meta =>
    by_cases hz : s.dataUpdatedAt = 0
    · exact ⟨by simp [dispatch, hz], by simp [dispatch, hz]⟩
    · exact ⟨by simpa [dispatch, hz] using hiff, by simpa [dispatch, hz] using hsucc⟩
  | success d t m =>
    obtain ⟨hnow, ht⟩ := ha
    have hpos : 0 < t.getD now := by
      cases t with
      | none => simpa using hnow
      | some x => simpa using ht x rfl
    cases m <;> simp [StatusInv, dispatch] <;> omega
  | errorFail e c r =>
    refine ⟨?_, ?_⟩ <;> simp [dispatch]
  | setState st => exact ha.elim

theorem statusInv_reachable {D E M : Type} {s : MerapiState D E M}
    (h : ReachableState s) : StatusInv s := by
  obtain ⟨s0, h0, hsteps⟩ := h
  induction hsteps with
  | refl => exact statusInv_init h0
  | tail _ hstep ih => exact statusInv_step ih hstep

theorem dataUpdatedAt_pos_step {D E M : Type} {s s' : MerapiState D E M}
    (h : GoodStep s s') (hpos : 0 < s.dataUpdatedAt) : 0 < s'.dataUpdatedAt := by
  rcases h with ⟨now, cf, a, s, ha⟩
  cases a with
  | failed n e => simpa [dispatch] using hpos
  | pauseFetch => simpa [dispatch] using hpos
  | continueFetch => simpa [dispatch] using hpos
  | invalidate => simpa [dispatch] using hpos
  | fetchStart meta =>
    by_cases hz : s.dataUpdatedAt = 0
    · omega
    · simpa [dispatch, hz] using hpos
  | success d t m =>
    obtain ⟨hnow, ht⟩ := ha
    have hpos' : 0 < t.getD now := by
      cases t with
      | none => simpa using hnow
      | some x => simpa using ht x rfl
    cases m <;> simpa [dispatch] using hpos'
  | errorFail e c r =>
    simp only [dispatch]
    exact hpos
  | setState st => exact ha.elim

/-- Counterexample to claim C3 as stated: starting from the default state
(no initial data), a fetch fails terminally (`status = error`), and the next
`fetch` action — since `dataUpdatedAt` is still `0` — returns the status to
`loading`.  So a later transition does return `status` to `'loading'` after
the first terminal failure. -/
theorem claim3_counterexample :
    let s0 : MerapiState Nat Nat Nat := getDefaultState none none 1
    let s1 := dispatch 2 true none (.errorFail 7 false false) s0
    let s2 := dispatch 3 true none (.fetchStart none) s1
    ReachableState s1 ∧ s1.status = .error ∧ s2.status = .loading := by
  refine ⟨⟨getDefaultState none none 1, ?_, ?_⟩, by decide, by decide⟩
  · exact GoodInit.mk none none 1 (by decide) (by intro x hx; cases hx)
  · exact Relation.ReflTransGen.single
      (GoodStep.mk 2 true (.errorFail 7 false false) _ (by simp [goodAction]))

/-- Amended claim C3: in every reachable state (default initial state under
well-formed options, transitions of `dispatch` excluding the external
`setState` patch and the cancel-revert path, with positive clock values and
non-null errors), `status = loading` holds iff `dataUpdatedAt = 0` and
`error = null`; and once `status` has become `success`, no later such
transition returns the status to `loading`.  (After a terminal failure with
no data, a subsequent fetch does return the status to `loading`; see the
counterexample.) -/
theorem claim3_amended {D E M : Type} :
    (∀ s : MerapiState D E M, ReachableState s →
      (s.status = .loading ↔ s.dataUpdatedAt = 0 ∧ s.error = none)) ∧
    (∀ s s' : MerapiState D E M, ReachableState s →
      Relation.ReflTransGen GoodStep s s' →
      s.status = .success → s'.status ≠ .loading) := by
  constructor
  · intro s hs
    exact (statusInv_reachable hs).1
  · intro s s' hs hsteps hsucc
    have hpos : 0 < s.dataUpdatedAt := (statusInv_reachable hs).2 hsucc
    have hpos' : 0 < s'.dataUpdatedAt := by
      clear hsucc
      induction hsteps with
      | refl => exact hpos
      | tail _ hstep ih => exact dataUpdatedAt_pos_step hstep ih
    have hreach' : ReachableState s' := by
      obtain ⟨s0, h0, h1⟩ := hs
      exact ⟨s0, h0, h1.trans hsteps⟩
    intro hload
    have := ((statusInv_reachable hreach').1.mp hload).1
    omega

/-- Witness for the amended claim C3: a concrete reachable success state,
with a concrete onward transition, never shows `loading`. -/
theorem claim3_amended_witness :
    let s0 : MerapiState Nat Nat Nat := getDefaultState none none 1
    let s1 := dispatch 2 true none (.success (some 5) none false) s0
    let s2 := dispatch 3 true none (.fetchStart none) s1
    s2.status ≠ .loading := by
  intro s0 s1 s2
  have hreach : ReachableState s1 :=
    ⟨s0, GoodInit.mk none none 1 (by decide) (by intro x hx; cases hx),
      Relation.ReflTransGen.single
        (GoodStep.mk 2 true (.success (some 5) none false) _
          (by exact ⟨by decide, by intro x hx; cases hx⟩))⟩
  exact (@claim3_amended Nat Nat Nat).2 s1 s2 hreach
    (Relation.ReflTransGen.single
      (GoodStep.mk 3 true (.fetchStart none) _ (by simp [goodAction])))
    (by decide)

/-! ### C5: the concurrency guard of `Merapi.fetch` -/

/-- The fields of the entry that the guard at the top of `Merapi.fetch`
reads: the current `state.fetchStatus`, `state.dataUpdatedAt`, and whether
an in-flight promise is stored on the entry (promises are identified by a
number, so that "returns the same promise" is expressible). -/
structure FetchSnapshot where
  fetchStatus : FetchStatus
  dataUpdatedAt : Nat
  promise : Option Nat
deriving DecidableEq, Repr

/-- What a call to `Merapi.fetch` does before any new work starts:
either it returns the stored in-flight promise (after `continueRetry()`),
or it proceeds to start a new fetch, possibly after silently cancelling the
current one. -/
inductive FetchCallResult where
  | sharedPromise (promise : Nat) (continuedRetry : Bool)
  | newFetch (cancelledPrevious : Bool)
deriving DecidableEq, Repr

/-- Embedding of the guard of `Merapi.fetch` (merapi.ts, lines 332-342):
if `fetchStatus` is not `idle`, then when `dataUpdatedAt` is truthy and the
caller requested `cancelRefetch` the in-flight fetch is silently cancelled
and a new fetch begins; otherwise, if a promise is stored, that same
promise is returned; in every other case a new fetch begins. -/
def fetchGuard (s : FetchSnapshot) (cancelRefetch : Bool) : FetchCallResult :=
  if s.fetchStatus ≠ .idle then
    if s.dataUpdatedAt ≠ 0 && cancelRefetch then .newFetch true
    else
      match s.promise with
      | some p => .sharedPromise p true
      | none => .newFetch false
  else .newFetch false

/-- Claim C5: while a fetch is in flight (`fetchStatus ≠ idle`, promise
stored), a second call returns the very same promise and starts no second
attempt — unless the caller requested `cancelRefetch` and data already
exists, in which case the in-flight fetch is silently cancelled and a new
fetch begins. -/
theorem claim5_fetch_promise_sharing (s : FetchSnapshot) (cr : Bool) (p : Nat)
    (hfs : s.fetchStatus ≠ .idle) (hp : s.promise = some p) :
    (¬(cr = true ∧ 0 < s.dataUpdatedAt) →
      fetchGuard s cr = .sharedPromise p true) ∧
    (cr = true → 0 < s.dataUpdatedAt → fetchGuard s cr = .newFetch true) := by
  constructor
  · intro h
    cases cr with
    | false => simp [fetchGuard, hfs, hp]
    | true =>
      have hz : s.dataUpdatedAt = 0 := by
        by_contra hnz
        exact h ⟨rfl, by omega⟩
      simp [fetchGuard, hfs, hp, hz]
  · intro hcr hda
    subst hcr
    have hnz : s.dataUpdatedAt ≠ 0 := by omega
    simp [fetchGuard, hfs, hnz]

/-- Witness for C5 at a concrete snapshot. -/
theorem claim5_fetch_promise_sharing_witness :
    (¬(false = true ∧ 0 < (FetchSnapshot.mk .fetching 9 (some 42)).dataUpdatedAt) →
      fetchGuard (FetchSnapshot.mk .fetching 9 (some 42)) false =
        .sharedPromise 42 true) ∧
    (false = true → 0 < (FetchSnapshot.mk .fetching 9 (some 42)).dataUpdatedAt →
      fetchGuard (FetchSnapshot.mk .fetching 9 (some 42)) false = .newFetch true) :=
  claim5_fetch_promise_sharing (FetchSnapshot.mk .fetching 9 (some 42)) false 42
    (by decide) rfl

/-! ### C6: `hydrate` (hydration.ts, lines 118-179)

The merapi cache is modelled as an insertion-ordered association list from
`merapiHash` to entry state (`MerapiCache` keeps a `merapisMap` keyed by
hash; `build` reuses an existing entry with the same hash and otherwise
appends a new one).  The mutation cache only matters to the claim through
"unchanged", so its entries are opaque. -/

structure DehydratedMerapi (D E M : Type) where
  merapiHash : String
  state : MerapiState D E M

/-- The raw snapshot passed to `hydrate` is `unknown`; a `null` or
non-object value fails the `isObject` guard. -/
inductive DehydratedInput (D E M MU : Type) where
  | notObject
  | snapshot (mutations : List MU) (merapis : List (DehydratedMerapi D E M))

def cacheLookup {D E M : Type} (c : List (String × MerapiState D E M))
    (h : String) : Option (MerapiState D E M) :=
  (c.find? (fun p => p.1 == h)).map (fun p => p.2)

/-- Replace the state stored under hash `h` (the effect of `setState` on the
entry found in the map). -/
def cacheSet {D E M : Type} (c : List (String × MerapiState D E M))
    (h : String) (st : MerapiState D E M) : List (String × MerapiState D E M) :=
  match c with
  | [] => []
  | p :: rest =>
    if p.1 == h then (p.1, st) :: cacheSet rest h st
    else p :: cacheSet rest h st

/-- One step of the `merapis.forEach` loop in `hydrate`: force
`fetchStatus := idle` on the dehydrated state; if an entry with this hash
exists, apply the state only when its `dataUpdatedAt` is strictly smaller
than the hydrated one; otherwise build a new entry with the hydrated
state. -/
def hydrateMerapi {D E M : Type} (c : List (String × MerapiState D E M))
    (dq : DehydratedMerapi D E M) : List (String × MerapiState D E M) :=
  let st := { dq.state with fetchStatus := .idle }
  match cacheLookup c dq.merapiHash with
  | some existing =>
    if existing.dataUpdatedAt < st.dataUpdatedAt then cacheSet c dq.merapiHash st
    else c
  | none => c ++ [(dq.merapiHash, st)]

/-- `hydrate`: a null/non-object snapshot returns early; otherwise every
dehydrated mutation is built into the mutation cache and every dehydrated
merapi is processed by `hydrateMerapi`.  (`mutationCache.build` always
constructs a new mutation and appends it; `mutation-cache.ts` is not among
the sources — modelled from the spec, which says hydrated mutations are
built into the MutationCache so resume will pick them up.) -/
def hydrate {D E M MU : Type} (mc : List MU)
    (qc : List (String × MerapiState D E M)) :
    DehydratedInput D E M MU → List MU × List (String × MerapiState D E M)
  | .notObject => (mc, qc)
  | .snapshot muts merapis => (mc ++ muts, merapis.foldl hydrateMerapi qc)

theorem cacheLookup_cacheSet_self {D E M : Type}
    (c : List (String × MerapiState D E M)) (h : String)
    (st : MerapiState D E M) (hmem : (cacheLookup c h).isSome) :
    cacheLookup (cacheSet c h st) h = some st := by
  induction c with
  | nil => simp [cacheLookup] at hmem
  | cons p rest ih =>
    rcases hbeq : (p.1 == h) with _ | _
    · have hmem' : (cacheLookup rest h).isSome := by
        simpa [cacheLookup, List.find?_cons, hbeq] using hmem
      have := ih hmem'
      simpa [cacheLookup, cacheSet, List.find?_cons, hbeq] using this
    · simp [cacheLookup, cacheSet, List.find?_cons, hbeq]

/-- Claim C6: `hydrate` forces `fetchStatus = idle` on every hydrated entry
state; an existing entry is overwritten (via `setState`) only when its
`dataUpdatedAt` is strictly below the hydrated one and is otherwise left
unchanged; an absent entry is built with the hydrated state; and a null or
non-object snapshot leaves both caches unchanged. -/
theorem claim6_hydrate {D E M MU : Type} (mc : List MU)
    (qc : List (String × MerapiState D E M)) (dq : DehydratedMerapi D E M) :
    (@hydrate D E M MU mc qc .notObject = (mc, qc)) ∧
    (∀ ex, cacheLookup qc dq.merapiHash = some ex →
      ¬(ex.dataUpdatedAt < dq.state.dataUpdatedAt) →
      hydrateMerapi qc dq = qc) ∧
    (∀ ex, cacheLookup qc dq.merapiHash = some ex →
      ex.dataUpdatedAt < dq.state.dataUpdatedAt →
      cacheLookup (hydrateMerapi qc dq) dq.merapiHash =
        some { dq.state with fetchStatus := .idle }) ∧
    (cacheLookup qc dq.merapiHash = none →
      cacheLookup (hydrateMerapi qc dq) dq.merapiHash =
        some { dq.state with fetchStatus := .idle }) := by
  refine ⟨rfl, ?_, ?_, ?_⟩
  · intro ex hex hlt
    simp [hydrateMerapi, hex, hlt]
  · intro ex hex hlt
    simp only [hydrateMerapi, hex]
    rw [if_pos (by simpa using hlt)]
    exact cacheLookup_cacheSet_self qc dq.merapiHash _ (by simp [hex])
  · intro hnone
    simp only [hydrateMerapi, hnone]
    induction qc with
    | nil => simp [cacheLookup]
    | cons p rest ih =>
      rcases hbeq : (p.1 == dq.merapiHash) with _ | _
      · have hn' : cacheLookup rest dq.merapiHash = none := by
          simpa [cacheLookup, List.find?_cons, hbeq] using hnone
        have := ih hn'
        simpa [cacheLookup, List.find?_cons, hbeq] using this
      · exfalso
        simp [cacheLookup, List.find?_cons, hbeq] at hnone

/-- Witness for C6 at concrete caches and a concrete dehydrated entry. -/
theorem claim6_hydrate_witness :
    let st : MerapiState Nat Nat Nat :=
      { getDefaultState (some 4) (some 9) 1 with fetchStatus := .fetching }
    let dq : DehydratedMerapi Nat Nat Nat := ⟨"h", st⟩
    let qc : List (String × MerapiState Nat Nat Nat) :=
      [("h", getDefaultState (some 3) (some 2) 1)]
    (@hydrate Nat Nat Nat Nat [] qc .notObject = ([], qc)) ∧
    (∀ ex, cacheLookup qc dq.merapiHash = some ex →
      ¬(ex.dataUpdatedAt < dq.state.dataUpdatedAt) →
      hydrateMerapi qc dq = qc) ∧
    (∀ ex, cacheLookup qc dq.merapiHash = some ex →
      ex.dataUpdatedAt < dq.state.dataUpdatedAt →
      cacheLookup (hydrateMerapi qc dq) dq.merapiHash =
        some { dq.state with fetchStatus := .idle }) ∧
    (cacheLookup qc dq.merapiHash = none →
      cacheLookup (hydrateMerapi qc dq) dq.merapiHash =
        some { dq.state with fetchStatus := .idle }) :=
  claim6_hydrate [] _ _

/-! ## JSON values and key hashing (`utils.ts`, lines 245-294)

Merapi keys are JSON-serializable JavaScript values (the spec requires all
keys to be JSON-serializable).  `JVal` models them: null, booleans, numbers
(integral — no machine-float behaviour is involved in hashing), strings,
arrays, and plain objects as insertion-ordered association lists.

`hashMerapiKey` is `JSON.stringify(key, replacer)` where the replacer
replaces every plain object by one whose keys are sorted; this composite is
expressed here as serialization of the recursively key-sorted canonical
form.  The serializer follows `JSON.stringify`'s output format (no
whitespace, standard string escapes). -/

inductive JVal where
  | jnull
  | jbool (b : Bool)
  | jnum (n : Int)
  | jstr (s : String)
  | jarr (elems : List JVal)
  | jobj (entries : List (String × JVal))

mutual

def beqJ : JVal → JVal → Bool
  | .jnull, .jnull => true
  | .jbool a, .jbool b => a == b
  | .jnum a, .jnum b => a == b
  | .jstr a, .jstr b => a == b
  | .jarr xs, .jarr ys => beqJList xs ys
  | .jobj akvs, .jobj bkvs => beqJEntries akvs bkvs
  | _, _ => false

def beqJList : List JVal → List JVal → Bool
  | [], [] => true
  | x :: xs, y :: ys => beqJ x y && beqJList xs ys
  | _, _ => false

def beqJEntries : List (String × JVal) → List (String × JVal) → Bool
  | [], [] => true
  | (k1, v1) :: xs, (k2, v2) :: ys => k1 == k2 && beqJ v1 v2 && beqJEntries xs ys
  | _, _ => false

end

mutual

theorem beqJ_iff : ∀ (a b : JVal), beqJ a b = true ↔ a = b
  | .jnull, b => by cases b <;> simp [beqJ]
  | .jbool x, b => by cases b <;> simp [beqJ]
  | .jnum x, b => by cases b <;> simp [beqJ]
  | .jstr x, b => by cases b <;> simp [beqJ]
  | .jarr xs, b => by
    cases b <;> simp [beqJ]
    exact beqJList_iff xs _
  | .jobj kvs, b => by
    cases b <;> simp [beqJ]
    exact beqJEntries_iff kvs _

theorem beqJList_iff : ∀ (xs ys : List JVal), beqJList xs ys = true ↔ xs = ys
  | [], ys => by cases ys <;> simp [beqJList]
  | x :: xs, [] => by simp [beqJList]
  | x :: xs, y :: ys => by
    simp [beqJList, beqJ_iff x y, beqJList_iff xs ys]

theorem beqJEntries_iff :
    ∀ (xs ys : List (String × JVal)), beqJEntries xs ys = true ↔ xs = ys
  | [], ys => by cases ys <;> simp [beqJEntries]
  | (k, v) :: xs, [] => by simp [beqJEntries]
  | (k1, v1) :: xs, (k2, v2) :: ys => by
    simp [beqJEntries, beqJ_iff v1 v2, beqJEntries_iff xs ys, and_assoc]

end

instance : DecidableEq JVal :=
  fun a b => decidable_of_iff (beqJ a b = true) (beqJ_iff a b)

/-! ### Decimal digits -/

def digitChar : Nat → Char
  | 0 => '0'
  | 1 => '1'
  | 2 => '2'
  | 3 => '3'
  | 4 => '4'
  | 5 => '5'
  | 6 => '6'
  | 7 => '7'
  | 8 => '8'
  | _ => '9'

def isDigitCh (c : Char) : Bool := 48 ≤ c.toNat && c.toNat ≤ 57

def charDigit (c : Char) : Nat := c.toNat - 48

def natDigitsAux : Nat → Nat → List Char
  | 0, n => [digitChar (n % 10)]
  | fuel + 1, n =>
    if n < 10 then [digitChar n]
    else natDigitsAux fuel (n / 10) ++ [digitChar (n % 10)]

/-- The decimal digits of a natural number (fuel-based so that it reduces
by iota; the fuel `n` always suffices). -/
def natDigits (n : Nat) : List Char := natDigitsAux n n

theorem natDigitsAux_irrel :
    ∀ (n f1 f2 : Nat), n ≤ f1 → n ≤ f2 →
    natDigitsAux f1 n = natDigitsAux f2 n := by
  intro n
  induction n using Nat.strong_induction_on with
  | _ n ih =>
    intro f1 f2 h1 h2
    cases f1 with
    | zero =>
      cases f2 with
      | zero => rfl
      | succ f2 =>
        have : n = 0 := by omega
        subst this
        rw [natDigitsAux, natDigitsAux, if_pos (by omega)]
    | succ f1 =>
      cases f2 with
      | zero =>
        have : n = 0 := by omega
        subst this
        rw [natDigitsAux, natDigitsAux, if_pos (by omega)]
      | succ f2 =>
        rw [natDigitsAux, natDigitsAux]
        by_cases h : n < 10
        · rw [if_pos h, if_pos h]
        · rw [if_neg h, if_neg h]
          have hlt : n / 10 < n := Nat.div_lt_self (by omega) (by omega)
          rw [ih (n / 10) hlt f1 f2 (by omega) (by omega)]

theorem natDigits_eq (n : Nat) :
    natDigits n = if n < 10 then [digitChar n]
      else natDigits (n / 10) ++ [digitChar (n % 10)] := by
  unfold natDigits
  cases n with
  | zero => rw [natDigitsAux, if_pos (by omega)]
  | succ m =>
    rw [natDigitsAux]
    by_cases h : m + 1 < 10
    · rw [if_pos h, if_pos h]
    · rw [if_neg h, if_neg h]
      have hlt : (m + 1) / 10 < m + 1 := Nat.div_lt_self (by omega) (by omega)
      rw [natDigitsAux_irrel ((m + 1) / 10) m ((m + 1) / 10) (by omega) (by omega)]

def digitsVal (l : List Char) : Nat := l.foldl (fun a c => 10 * a + charDigit c) 0

theorem charDigit_digitChar : ∀ d < 10, charDigit (digitChar d) = d := by decide

theorem isDigitCh_digitChar : ∀ d < 10, isDigitCh (digitChar d) = true := by decide

theorem digitsVal_append_single (l : List Char) (c : Char) :
    digitsVal (l ++ [c]) = 10 * digitsVal l + charDigit c := by
  simp [digitsVal, List.foldl_append]

theorem digitsVal_natDigits (n : Nat) : digitsVal (natDigits n) = n := by
  induction n using Nat.strong_induction_on with
  | _ n ih =>
    by_cases h : n < 10
    · rw [natDigits_eq, if_pos h]
      simpa [digitsVal] using charDigit_digitChar n h
    · rw [natDigits_eq, if_neg h]
      rw [digitsVal_append_single,
        ih (n / 10) (Nat.div_lt_self (by omega) (by omega)),
        charDigit_digitChar (n % 10) (Nat.mod_lt n (by omega))]
      omega

theorem natDigits_inj {a b : Nat} (h : natDigits a = natDigits b) : a = b := by
  have := digitsVal_natDigits a
  rw [h, digitsVal_natDigits] at this
  omega

theorem natDigits_ne_nil (n : Nat) : natDigits n ≠ [] := by
  rw [natDigits_eq]
  by_cases h : n < 10 <;> simp [h]

theorem natDigits_all_digit (n : Nat) :
    ∀ c ∈ natDigits n, isDigitCh c = true := by
  induction n using Nat.strong_induction_on with
  | _ n ih =>
    intro c hc
    by_cases h : n < 10
    · rw [natDigits_eq, if_pos h] at hc
      simp only [List.mem_singleton] at hc
      subst hc
      exact isDigitCh_digitChar n h
    · rw [natDigits_eq, if_neg h] at hc
      rcases List.mem_append.mp hc with h1 | h1
      · exact ih (n / 10) (Nat.div_lt_self (by omega) (by omega)) c h1
      · simp only [List.mem_singleton] at h1
        subst h1
        exact isDigitCh_digitChar (n % 10) (Nat.mod_lt n (by omega))

/-! ### Digit-run separation: a maximal digit run determines its number -/

theorem takeWhile_append_all {p : Char → Bool} (l r : List Char)
    (hl : ∀ c ∈ l, p c = true) (hr : ∀ c, r.head? = some c → p c = false) :
    (l ++ r).takeWhile p = l ∧ (l ++ r).dropWhile p = r := by
  induction l with
  | nil =>
    cases r with
    | nil => simp
    | cons c cs =>
      have := hr c rfl
      simp [List.takeWhile, List.dropWhile, this]
  | cons a l ih =>
    have ha := hl a (by simp)
    have hrec := ih (fun c hc => hl c (by simp [hc]))
    simp [List.takeWhile_cons, List.dropWhile_cons, ha, hrec.1, hrec.2]

theorem digits_sep {a b : Nat} {r1 r2 : List Char}
    (heq : natDigits a ++ r1 = natDigits b ++ r2)
    (h1 : ∀ c, r1.head? = some c → isDigitCh c = false)
    (h2 : ∀ c, r2.head? = some c → isDigitCh c = false) :
    a = b ∧ r1 = r2 := by
  have t1 := @takeWhile_append_all isDigitCh (natDigits a) r1
    (natDigits_all_digit a) h1
  have t2 := @takeWhile_append_all isDigitCh (natDigits b) r2
    (natDigits_all_digit b) h2
  rw [heq] at t1
  exact ⟨natDigits_inj (t1.1.symm.trans t2.1), t1.2.symm.trans t2.2⟩

/-! ### Integer serialization -/

def serInt (n : Int) : List Char :=
  if n < 0 then '-' :: natDigits n.natAbs else natDigits n.toNat

theorem natDigits_head_digit {n : Nat} {c : Char} {t : List Char}
    (h : natDigits n = c :: t) : isDigitCh c = true :=
  natDigits_all_digit n c (by rw [h]; simp)

theorem serInt_sep {m1 m2 : Int} {r1 r2 : List Char}
    (heq : serInt m1 ++ r1 = serInt m2 ++ r2)
    (h1 : ∀ c, r1.head? = some c → isDigitCh c = false)
    (h2 : ∀ c, r2.head? = some c → isDigitCh c = false) :
    m1 = m2 ∧ r1 = r2 := by
  unfold serInt at heq
  by_cases hm1 : m1 < 0 <;> by_cases hm2 : m2 < 0
  · rw [if_pos hm1, if_pos hm2] at heq
    simp only [List.cons_append, List.cons.injEq, true_and] at heq
    obtain ⟨ha, hr⟩ := digits_sep heq h1 h2
    exact ⟨by omega, hr⟩
  · rw [if_pos hm1, if_neg hm2] at heq
    obtain ⟨c, t, hct⟩ : ∃ c t, natDigits m2.toNat = c :: t := by
      cases hnd : natDigits m2.toNat with
      | nil => exact absurd hnd (natDigits_ne_nil _)
      | cons c t => exact ⟨c, t, rfl⟩
    rw [hct] at heq
    simp only [List.cons_append, List.cons.injEq] at heq
    have := natDigits_head_digit hct
    rw [← heq.1] at this
    simp [isDigitCh] at this
  · rw [if_neg hm1, if_pos hm2] at heq
    obtain ⟨c, t, hct⟩ : ∃ c t, natDigits m1.toNat = c :: t := by
      cases hnd : natDigits m1.toNat with
      | nil => exact absurd hnd (natDigits_ne_nil _)
      | cons c t => exact ⟨c, t, rfl⟩
    rw [hct] at heq
    simp only [List.cons_append, List.cons.injEq] at heq
    have := natDigits_head_digit hct
    rw [heq.1] at this
    simp [isDigitCh] at this
  · rw [if_neg hm1, if_neg hm2] at heq
    obtain ⟨ha, hr⟩ := digits_sep heq h1 h2
    exact ⟨by omega, hr⟩

/-! ### String escaping (the `JSON.stringify` string format) -/

def hexChar : Nat → Char
  | 0 => '0'
  | 1 => '1'
  | 2 => '2'
  | 3 => '3'
  | 4 => '4'
  | 5 => '5'
  | 6 => '6'
  | 7 => '7'
  | 8 => '8'
  | 9 => '9'
  | 10 => 'a'
  | 11 => 'b'
  | 12 => 'c'
  | 13 => 'd'
  | 14 => 'e'
  | _ => 'f'

def esc (c : Char) : List Char :=
  if c = '"' then ['\\', '"']
  else if c = '\\' then ['\\', '\\']
  else if c = Char.ofNat 8 then ['\\', 'b']
  else if c = '\t' then ['\\', 't']
  else if c = '\n' then ['\\', 'n']
  else if c = Char.ofNat 12 then ['\\', 'f']
  else if c = '\r' then ['\\', 'r']
  else if c.toNat < 32 then
    ['\\', 'u', '0', '0', hexChar (c.toNat / 16), hexChar (c.toNat % 16)]
  else [c]

def escapeStr : List Char → List Char
  | [] => []
  | c :: cs => esc c ++ escapeStr cs

def hexVal (c : Char) : Nat := if c ≤ '9' then c.toNat - 48 else c.toNat - 87

/-- A decoder for one escaped character; used only to prove that `esc` is
prefix-injective. -/
def unesc : List Char → Option (Char × List Char)
  | [] => none
  | c :: t =>
    if c = '\\' then
      match t with
      | [] => none
      | d :: t' =>
        if d = '"' then some ('"', t')
        else if d = '\\' then some ('\\', t')
        else if d = 'b' then some (Char.ofNat 8, t')
        else if d = 't' then some ('\t', t')
        else if d = 'n' then some ('\n', t')
        else if d = 'f' then some (Char.ofNat 12, t')
        else if d = 'r' then some ('\r', t')
        else if d = 'u' then
          match t' with
          | _ :: _ :: h :: l :: t2 => some (Char.ofNat (16 * hexVal h + hexVal l), t2)
          | _ => none
        else none
    else some (c, t)

theorem hexVal_hexChar : ∀ d < 16, hexVal (hexChar d) = d := by decide

theorem unesc_esc (c : Char) (t : List Char) : unesc (esc c ++ t) = some (c, t) := by
  unfold esc
  split_ifs with a1 a2 a3 a4 a5 a6 a7 a8
  · subst a1; simp [unesc]
  · subst a2; simp [unesc]
  · subst a3; simp [unesc]
  · subst a4; simp [unesc]
  · subst a5; simp [unesc]
  · subst a6; simp [unesc]
  · subst a7; simp [unesc]
  · have hdiv : c.toNat / 16 < 16 := by omega
    have hmod : c.toNat % 16 < 16 := Nat.mod_lt _ (by omega)
    simp [unesc, hexVal_hexChar _ hdiv, hexVal_hexChar _ hmod]
    rw [Nat.div_add_mod, Char.ofNat_toNat]
  · simp [unesc, a2]

theorem esc_step {c1 c2 : Char} {t1 t2 : List Char}
    (h : esc c1 ++ t1 = esc c2 ++ t2) : c1 = c2 ∧ t1 = t2 := by
  have h1 := unesc_esc c1 t1
  have h2 := unesc_esc c2 t2
  rw [h, h2] at h1
  simpa [eq_comm] using h1

theorem esc_ne_nil (c : Char) : esc c ≠ [] := by
  unfold esc
  split_ifs <;> simp

theorem esc_head_ne_quote {c d : Char} {t : List Char} (h : esc c = d :: t) :
    d ≠ '"' := by
  unfold esc at h
  split_ifs at h with a1 a2 a3 a4 a5 a6 a7 a8 <;>
    (first
      | (simp only [List.cons.injEq] at h; rw [← h.1]; decide)
      | (simp only [List.cons.injEq] at h; rw [← h.1]; exact a1))

theorem escapeStr_sep :
    ∀ (s1 s2 r1 r2 : List Char),
      escapeStr s1 ++ '"' :: r1 = escapeStr s2 ++ '"' :: r2 →
      s1 = s2 ∧ r1 = r2
  | [], [], r1, r2, h => by simpa [escapeStr] using h
  | [], c :: s2, r1, r2, h => by
    exfalso
    obtain ⟨d, t, hdt⟩ : ∃ d t, esc c = d :: t := by
      cases he : esc c with
      | nil => exact absurd he (esc_ne_nil c)
      | cons d t => exact ⟨d, t, rfl⟩
    rw [show escapeStr (c :: s2) = esc c ++ escapeStr s2 from rfl, hdt] at h
    simp only [escapeStr, List.nil_append, List.cons_append, List.cons.injEq] at h
    exact esc_head_ne_quote hdt h.1.symm
  | c :: s1, [], r1, r2, h => by
    exfalso
    obtain ⟨d, t, hdt⟩ : ∃ d t, esc c = d :: t := by
      cases he : esc c with
      | nil => exact absurd he (esc_ne_nil c)
      | cons d t => exact ⟨d, t, rfl⟩
    rw [show escapeStr (c :: s1) = esc c ++ escapeStr s1 from rfl, hdt] at h
    simp only [escapeStr, List.nil_append, List.cons_append, List.cons.injEq] at h
    exact esc_head_ne_quote hdt h.1
  | c1 :: s1, c2 :: s2, r1, r2, h => by
    rw [show escapeStr (c1 :: s1) = esc c1 ++ escapeStr s1 from rfl,
      show escapeStr (c2 :: s2) = esc c2 ++ escapeStr s2 from rfl] at h
    rw [List.append_assoc, List.append_assoc] at h
    obtain ⟨hc, ht⟩ := esc_step h
    obtain ⟨hs, hr⟩ := escapeStr_sep s1 s2 r1 r2 ht
    exact ⟨by rw [hc, hs], hr⟩

/-! ### The serializer (the output of `JSON.stringify` with no spacing) -/

mutual

def ser : JVal → List Char
  | .jnull => ['n', 'u', 'l', 'l']
  | .jbool true => ['t', 'r', 'u', 'e']
  | .jbool false => ['f', 'a', 'l', 's', 'e']
  | .jnum n => serInt n
  | .jstr s => '"' :: (escapeStr s.data ++ ['"'])
  | .jarr xs => '[' :: (serElems xs ++ [']'])
  | .jobj kvs => '{' :: (serEntries kvs ++ ['}'])

def serElems : List JVal → List Char
  | [] => []
  | x :: xs => ser x ++ serElemsTail xs

def serElemsTail : List JVal → List Char
  | [] => []
  | x :: xs => ',' :: (ser x ++ serElemsTail xs)

def serEntries : List (String × JVal) → List Char
  | [] => []
  | (k, v) :: rest =>
    ('"' :: (escapeStr k.data ++ '"' :: ':' :: ser v)) ++ serEntriesTail rest

def serEntriesTail : List (String × JVal) → List Char
  | [] => []
  | (k, v) :: rest =>
    ',' :: (('"' :: (escapeStr k.data ++ '"' :: ':' :: ser v)) ++ serEntriesTail rest)

end

/-- The first character of a serialized value classifies its constructor. -/
def ctorTag : JVal → Nat
  | .jnull => 0
  | .jbool _ => 1
  | .jnum _ => 3
  | .jstr _ => 4
  | .jarr _ => 5
  | .jobj _ => 6

def starterTag (c : Char) : Nat :=
  if c = 'n' then 0
  else if c = 't' ∨ c = 'f' then 1
  else if c = '-' ∨ isDigitCh c then 3
  else if c = '"' then 4
  else if c = '[' then 5
  else if c = '{' then 6
  else 7

theorem starterTag_digit {c : Char} (h : isDigitCh c = true) : starterTag c = 3 := by
  have hn : c ≠ 'n' := by rintro rfl; simp [isDigitCh] at h
  have ht : c ≠ 't' := by rintro rfl; simp [isDigitCh] at h
  have hf : c ≠ 'f' := by rintro rfl; simp [isDigitCh] at h
  simp [starterTag, hn, ht, hf, h]

theorem ser_head (v : JVal) : ∃ c t, ser v = c :: t ∧ starterTag c = ctorTag v := by
  cases v with
  | jnull => exact ⟨'n', ['u', 'l', 'l'], rfl, by decide⟩
  | jbool b => cases b with
    | true => exact ⟨'t', ['r', 'u', 'e'], rfl, by decide⟩
    | false => exact ⟨'f', ['a', 'l', 's', 'e'], rfl, by decide⟩
  | jnum n =>
    rw [ser]
    unfold serInt
    by_cases hn : n < 0
    · rw [if_pos hn]
      exact ⟨'-', natDigits n.natAbs, rfl, by simp [starterTag, ctorTag, isDigitCh]⟩
    · rw [if_neg hn]
      obtain ⟨c, t, hct⟩ : ∃ c t, natDigits n.toNat = c :: t := by
        cases he : natDigits n.toNat with
        | nil => exact absurd he (natDigits_ne_nil _)
        | cons c t => exact ⟨c, t, rfl⟩
      exact ⟨c, t, hct, by
        rw [starterTag_digit (natDigits_head_digit hct)]
        rfl⟩
  | jstr s => exact ⟨'"', escapeStr s.data ++ ['"'], rfl, by simp [starterTag, ctorTag, isDigitCh]⟩
  | jarr xs => exact ⟨'[', serElems xs ++ [']'], rfl, by simp [starterTag, ctorTag, isDigitCh]⟩
  | jobj kvs => exact ⟨'{', serEntries kvs ++ ['}'], rfl, by simp [starterTag, ctorTag, isDigitCh]⟩

theorem ser_ctorTag_eq {v1 v2 : JVal} {r1 r2 : List Char}
    (h : ser v1 ++ r1 = ser v2 ++ r2) : ctorTag v1 = ctorTag v2 := by
  obtain ⟨c1, t1, e1, g1⟩ := ser_head v1
  obtain ⟨c2, t2, e2, g2⟩ := ser_head v2
  rw [e1, e2] at h
  simp only [List.cons_append, List.cons.injEq] at h
  rw [← g1, ← g2, h.1]

/-! ### Separation: a serialized value followed by a non-digit is unambiguous -/

def NonDigitHead (r : List Char) : Prop :=
  ∀ c, r.head? = some c → isDigitCh c = false

theorem nonDigitHead_nil : NonDigitHead ([] : List Char) := by
  intro c hc
  cases hc

theorem nonDigitHead_cons {c : Char} (h : isDigitCh c = false) (r : List Char) :
    NonDigitHead (c :: r) := by
  intro d hd
  simp only [List.head?_cons, Option.some.injEq] at hd
  rw [← hd]
  exact h

theorem ctorTag_le (v : JVal) : ctorTag v ≤ 6 := by
  cases v <;> simp [ctorTag]

theorem nonDigitHead_elemsTail (l : List JVal) (r : List Char) :
    NonDigitHead (serElemsTail l ++ ']' :: r) := by
  cases l with
  | nil =>
    rw [serElemsTail, List.nil_append]
    exact nonDigitHead_cons (by decide) r
  | cons x xs =>
    rw [serElemsTail, List.cons_append]
    exact nonDigitHead_cons (by decide) _

theorem nonDigitHead_entriesTail (l : List (String × JVal)) (r : List Char) :
    NonDigitHead (serEntriesTail l ++ '}' :: r) := by
  cases l with
  | nil =>
    rw [serEntriesTail, List.nil_append]
    exact nonDigitHead_cons (by decide) r
  | cons kv rest =>
    obtain ⟨k, v⟩ := kv
    rw [serEntriesTail, List.cons_append]
    exact nonDigitHead_cons (by decide) _

theorem string_data_eq {s1 s2 : String} (h : s1.data = s2.data) : s1 = s2 := by
  cases s1
  cases s2
  simp only at h
  rw [h]

mutual

theorem ser_sep : ∀ (v1 v2 : JVal) (r1 r2 : List Char),
    ser v1 ++ r1 = ser v2 ++ r2 →
    NonDigitHead r1 → NonDigitHead r2 → v1 = v2 ∧ r1 = r2
  | v1, v2, r1, r2, heq, h1, h2 => by
    have hctor := ser_ctorTag_eq heq
    cases v1 <;> cases v2 <;>
      try (exfalso; simp [ctorTag] at hctor; done)
    case jnull.jnull =>
      simp only [ser, List.cons_append, List.nil_append, List.cons.injEq,
        true_and] at heq
      exact ⟨rfl, heq⟩
    case jbool.jbool b1 b2 =>
      cases b1 <;> cases b2 <;> simp_all [ser]
    case jnum.jnum n1 n2 =>
      simp only [ser] at heq
      obtain ⟨hn, hr⟩ := serInt_sep heq h1 h2
      exact ⟨by rw [hn], hr⟩
    case jstr.jstr s1 s2 =>
      simp only [ser, List.cons_append, List.append_assoc,
        List.singleton_append, List.cons.injEq, true_and] at heq
      obtain ⟨hs, hr⟩ := escapeStr_sep _ _ _ _ heq
      exact ⟨by rw [string_data_eq hs], hr⟩
    case jarr.jarr xs1 xs2 =>
      simp only [ser, List.cons_append, List.append_assoc,
        List.singleton_append, List.cons.injEq, true_and] at heq
      obtain ⟨hx, hr⟩ := serElems_sep xs1 xs2 r1 r2 heq
      exact ⟨by rw [hx], hr⟩
    case jobj.jobj o1 o2 =>
      simp only [ser, List.cons_append, List.append_assoc,
        List.singleton_append, List.cons.injEq, true_and] at heq
      obtain ⟨ho, hr⟩ := serEntries_sep o1 o2 r1 r2 heq
      exact ⟨by rw [ho], hr⟩
termination_by v1 _ _ _ _ _ _ => (sizeOf v1, 0)

theorem serElems_sep : ∀ (l1 l2 : List JVal) (r1 r2 : List Char),
    serElems l1 ++ ']' :: r1 = serElems l2 ++ ']' :: r2 →
    l1 = l2 ∧ r1 = r2
  | [], [], r1, r2, heq => by
    simpa [serElems] using heq
  | [], x :: l2, r1, r2, heq => by
    exfalso
    obtain ⟨c, t, e, g⟩ := ser_head x
    rw [serElems, serElems, e] at heq
    simp only [List.nil_append, List.cons_append, List.append_assoc,
      List.cons.injEq] at heq
    rw [← heq.1] at g
    have := ctorTag_le x
    rw [← g] at this
    simp [starterTag, isDigitCh] at this
  | x :: l1, [], r1, r2, heq => by
    exfalso
    obtain ⟨c, t, e, g⟩ := ser_head x
    rw [serElems, serElems, e] at heq
    simp only [List.nil_append, List.cons_append, List.append_assoc,
      List.cons.injEq] at heq
    rw [heq.1] at g
    have := ctorTag_le x
    rw [← g] at this
    simp [starterTag, isDigitCh] at this
  | x1 :: l1, x2 :: l2, r1, r2, heq => by
    rw [serElems, serElems, List.append_assoc, List.append_assoc] at heq
    obtain ⟨hx, ht⟩ := ser_sep x1 x2 _ _ heq
      (nonDigitHead_elemsTail l1 r1) (nonDigitHead_elemsTail l2 r2)
    obtain ⟨hl, hr⟩ := serElemsTail_sep l1 l2 r1 r2 ht
    exact ⟨by rw [hx, hl], hr⟩
termination_by l1 _ _ _ _ => (sizeOf l1, 1)

theorem serElemsTail_sep : ∀ (l1 l2 : List JVal) (r1 r2 : List Char),
    serElemsTail l1 ++ ']' :: r1 = serElemsTail l2 ++ ']' :: r2 →
    l1 = l2 ∧ r1 = r2
  | [], [], r1, r2, heq => by
    simpa [serElemsTail] using heq
  | [], x :: l2, r1, r2, heq => by
    rw [serElemsTail, serElemsTail] at heq
    simp at heq
  | x :: l1, [], r1, r2, heq => by
    rw [serElemsTail, serElemsTail] at heq
    simp at heq
  | x1 :: l1, x2 :: l2, r1, r2, heq => by
    rw [serElemsTail, serElemsTail] at heq
    simp only [List.cons_append, List.append_assoc, List.cons.injEq,
      true_and] at heq
    obtain ⟨hx, ht⟩ := ser_sep x1 x2 _ _ heq
      (nonDigitHead_elemsTail l1 r1) (nonDigitHead_elemsTail l2 r2)
    obtain ⟨hl, hr⟩ := serElemsTail_sep l1 l2 r1 r2 ht
    exact ⟨by rw [hx, hl], hr⟩
termination_by l1 _ _ _ _ => (sizeOf l1, 0)

theorem serEntries_sep : ∀ (o1 o2 : List (String × JVal)) (r1 r2 : List Char),
    serEntries o1 ++ '}' :: r1 = serEntries o2 ++ '}' :: r2 →
    o1 = o2 ∧ r1 = r2
  | [], [], r1, r2, heq => by
    simpa [serEntries] using heq
  | [], (k, v) :: o2, r1, r2, heq => by
    rw [serEntries, serEntries] at heq
    simp at heq
  | (k, v) :: o1, [], r1, r2, heq => by
    rw [serEntries, serEntries] at heq
    simp at heq
  | (k1, v1) :: o1, (k2, v2) :: o2, r1, r2, heq => by
    rw [serEntries, serEntries] at heq
    simp only [List.cons_append, List.append_assoc, List.cons.injEq,
      true_and] at heq
    obtain ⟨hk, ht⟩ := escapeStr_sep _ _ _ _ heq
    simp only [List.cons.injEq, true_and] at ht
    rw [← List.append_assoc, ← List.append_assoc] at ht
    rw [List.append_assoc, List.append_assoc] at ht
    obtain ⟨hv, ht2⟩ := ser_sep v1 v2 _ _ ht
      (nonDigitHead_entriesTail o1 r1) (nonDigitHead_entriesTail o2 r2)
    obtain ⟨ho, hr⟩ := serEntriesTail_sep o1 o2 r1 r2 ht2
    exact ⟨by rw [string_data_eq hk, hv, ho], hr⟩
termination_by o1 _ _ _ _ => (sizeOf o1, 1)

theorem serEntriesTail_sep :
    ∀ (o1 o2 : List (String × JVal)) (r1 r2 : List Char),
    serEntriesTail o1 ++ '}' :: r1 = serEntriesTail o2 ++ '}' :: r2 →
    o1 = o2 ∧ r1 = r2
  | [], [], r1, r2, heq => by
    simpa [serEntriesTail] using heq
  | [], (k, v) :: o2, r1, r2, heq => by
    rw [serEntriesTail, serEntriesTail] at heq
    simp at heq
  | (k, v) :: o1, [], r1, r2, heq => by
    rw [serEntriesTail, serEntriesTail] at heq
    simp at heq
  | (k1, v1) :: o1, (k2, v2) :: o2, r1, r2, heq => by
    rw [serEntriesTail, serEntriesTail] at heq
    simp only [List.cons_append, List.append_assoc, List.cons.injEq,
      true_and] at heq
    obtain ⟨hk, ht⟩ := escapeStr_sep _ _ _ _ heq
    simp only [List.cons.injEq, true_and] at ht
    rw [← List.append_assoc, ← List.append_assoc] at ht
    rw [List.append_assoc, List.append_assoc] at ht
    obtain ⟨hv, ht2⟩ := ser_sep v1 v2 _ _ ht
      (nonDigitHead_entriesTail o1 r1) (nonDigitHead_entriesTail o2 r2)
    obtain ⟨ho, hr⟩ := serEntriesTail_sep o1 o2 r1 r2 ht2
    exact ⟨by rw [string_data_eq hk, hv, ho], hr⟩
termination_by o1 _ _ _ _ => (sizeOf o1, 0)

end

/-! ### `hashMerapiKey` (utils.ts, lines 257-268)

`JSON.stringify(key, replacer)`, where the replacer maps every plain object
to a copy whose keys are sorted (`Object.keys(val).sort().reduce(...)`), is
the serialization of the canonical form in which object keys are sorted
recursively and arrays are kept in order. -/

/-- Insertion sort on object entries by key (`Object.keys(val).sort()` in
the replacer orders the keys lexicographically). -/
def strListLe : List Char → List Char → Bool
  | [], _ => true
  | _ :: _, [] => false
  | c :: cs, d :: ds =>
    if c.toNat < d.toNat then true
    else if d.toNat < c.toNat then false
    else strListLe cs ds

def keyLe (a b : String × JVal) : Bool := strListLe a.1.data b.1.data

def insertEntry (e : String × JVal) : List (String × JVal) → List (String × JVal)
  | [] => [e]
  | f :: rest => if keyLe e f then e :: f :: rest else f :: insertEntry e rest

def sortEntries : List (String × JVal) → List (String × JVal)
  | [] => []
  | e :: rest => insertEntry e (sortEntries rest)

mutual

def canonicalize : JVal → JVal
  | .jnull => .jnull
  | .jbool b => .jbool b
  | .jnum n => .jnum n
  | .jstr s => .jstr s
  | .jarr xs => .jarr (canonElems xs)
  | .jobj kvs => .jobj (sortEntries (canonEntries kvs))

def canonElems : List JVal → List JVal
  | [] => []
  | x :: xs => canonicalize x :: canonElems xs

def canonEntries : List (String × JVal) → List (String × JVal)
  | [] => []
  | (k, v) :: rest => (k, canonicalize v) :: canonEntries rest

end

/-- `hashMerapiKey`: the default merapi key hash function. -/
def hashMerapiKey (k : JVal) : String := String.mk (ser (canonicalize k))

/-- Claim C2: for all keys, `hashMerapiKey k1 = hashMerapiKey k2` iff the
canonical forms of `k1` and `k2` are equal, where the canonical form sorts
object keys recursively and preserves array element order.  (Hence the hash
is insensitive to object key insertion order at every depth and sensitive to
array element order.) -/
theorem claim2_hash_iff_canonical (k1 k2 : JVal) :
    hashMerapiKey k1 = hashMerapiKey k2 ↔ canonicalize k1 = canonicalize k2 := by
  constructor
  · intro h
    have hdata : ser (canonicalize k1) = ser (canonicalize k2) :=
      congrArg String.data h
    exact (ser_sep (canonicalize k1) (canonicalize k2) [] []
      (by simpa using hdata) nonDigitHead_nil nonDigitHead_nil).1
  · intro h
    unfold hashMerapiKey
    rw [h]

/-! ### `partialDeepEqual` (utils.ts, lines 280-294)

JavaScript pieces used by it: `typeof`, truthiness, `isObject` (an object or
array, `null` excluded), and property lookup `a[key]` — on an array, a
string key reads the element when it is a canonical decimal index.  A
missing property is `undefined`, which fails the recursive check against
any JSON value (`typeof` mismatch), so lookups return `Option JVal` and
`none` yields `false`. -/

def jtypeof : JVal → String
  | .jnull => "object"
  | .jbool _ => "boolean"
  | .jnum _ => "number"
  | .jstr _ => "string"
  | .jarr _ => "object"
  | .jobj _ => "object"

def truthy : JVal → Bool
  | .jnull => false
  | .jbool b => b
  | .jnum n => n != 0
  | .jstr s => s != ""
  | .jarr _ => true
  | .jobj _ => true

def isObjectJS : JVal → Bool
  | .jarr _ => true
  | .jobj _ => true
  | _ => false

def lookupKey : List (String × JVal) → String → Option JVal
  | [], _ => none
  | (k, v) :: rest, key => if k == key then some v else lookupKey rest key

/-- A string is a canonical array index when it is the decimal
representation of a natural number (JavaScript array element access via a
string property). -/
def parseIdx (s : String) : Option Nat :=
  if s.data ≠ [] ∧ s.data.all isDigitCh ∧ natDigits (digitsVal s.data) = s.data
  then some (digitsVal s.data)
  else none

def idxKey (i : Nat) : String := String.mk (natDigits i)

theorem parseIdx_idxKey (i : Nat) : parseIdx (idxKey i) = some i := by
  unfold parseIdx idxKey
  rw [if_pos]
  · simp [digitsVal_natDigits]
  · refine ⟨natDigits_ne_nil i, ?_, ?_⟩
    · simpa [List.all_eq_true] using natDigits_all_digit i
    · simp [digitsVal_natDigits]

/-- JavaScript property lookup `a[key]` on a JSON value; `none` is
`undefined`. -/
def jsGet (a : JVal) (key : String) : Option JVal :=
  match a with
  | .jobj kvs => lookupKey kvs key
  | .jarr xs =>
    match parseIdx key with
    | some i => xs[i]?
    | none => none
  | _ => none

mutual

/-- `partialDeepEqual(a, b)` (utils.ts, lines 280-294): `a === b`, or same
`typeof`, both truthy objects, and every own key of `b` checks recursively
against the corresponding property of `a`.  (For a reference-equality test
on structurally equal JSON values the recursive clause returns the same
verdict, so `===` is modelled by structural equality.) -/
def partialDeepEqual (a b : JVal) : Bool :=
  if a == b then true
  else if jtypeof a != jtypeof b then false
  else if truthy a && truthy b && isObjectJS a && isObjectJS b then
    match b with
    | .jobj kvs => pdeEntries a kvs
    | .jarr ys => pdeElems a ys 0
    | _ => false
  else false

/-- The `Object.keys(b)` loop of `partialDeepEqual` for an object `b`. -/
def pdeEntries (a : JVal) : List (String × JVal) → Bool
  | [] => true
  | (k, v) :: rest =>
    (match jsGet a k with
     | some av => partialDeepEqual av v
     | none => false) && pdeEntries a rest

/-- The `Object.keys(b)` loop of `partialDeepEqual` for an array `b`, whose
own keys are the decimal index strings. -/
def pdeElems (a : JVal) : List JVal → Nat → Bool
  | [], _ => true
  | y :: ys, i =>
    (match jsGet a (idxKey i) with
     | some av => partialDeepEqual av y
     | none => false) && pdeElems a ys (i + 1)

end

/-- `partialMatchKey` (utils.ts, lines 273-275). -/
def partialMatchKey (a b : JVal) : Bool := partialDeepEqual a b

/-! ### Recursive structural subsets (the spec-side notion used by C7)

`b'` is a recursive structural subset of `b` when objects keep a subset of
the keys (with recursively-subset values), arrays keep a prefix (with
recursively-subset elements), and leaves are equal. -/

mutual

def subsetJ : JVal → JVal → Bool
  | .jobj kvs1, .jobj kvs2 => subsetEntries kvs1 kvs2
  | .jarr xs1, .jarr xs2 => subsetElems xs1 xs2
  | x, y => x == y

def subsetEntries : List (String × JVal) → List (String × JVal) → Bool
  | [], _ => true
  | (k, v) :: rest, kvs =>
    (match lookupKey kvs k with
     | some v2 => subsetJ v v2
     | none => false) && subsetEntries rest kvs

def subsetElems : List JVal → List JVal → Bool
  | [], _ => true
  | _ :: _, [] => false
  | x :: rest, y :: rest2 => subsetJ x y && subsetElems rest rest2

end

/-! ### Recursively duplicate-free object keys (well-formedness of JS data:
a JavaScript object cannot carry the same own key twice) -/

def nodupStr : List String → Bool
  | [] => true
  | k :: rest => !(rest.contains k) && nodupStr rest

mutual

def nodupKeysJ : JVal → Bool
  | .jobj kvs => nodupStr (kvs.map Prod.fst) && nodupKeysEntries kvs
  | .jarr xs => nodupKeysElems xs
  | _ => true

def nodupKeysElems : List JVal → Bool
  | [] => true
  | x :: xs => nodupKeysJ x && nodupKeysElems xs

def nodupKeysEntries : List (String × JVal) → Bool
  | [] => true
  | (_, v) :: rest => nodupKeysJ v && nodupKeysEntries rest

end

theorem pde_refl (a : JVal) : partialDeepEqual a a = true := by
  have h : (a == a) = true := by simp
  rw [partialDeepEqual.eq_def, if_pos h]

theorem pdeEntries_of (a : JVal) :
    ∀ kvs : List (String × JVal),
    (∀ k v, (k, v) ∈ kvs →
      (match jsGet a k with
       | some av => partialDeepEqual av v
       | none => false) = true) →
    pdeEntries a kvs = true := by
  intro kvs
  induction kvs with
  | nil => intro _; rw [pdeEntries]
  | cons e rest ih =>
    obtain ⟨k, v⟩ := e
    intro h
    rw [pdeEntries]
    rw [h k v (by simp), ih (fun k' v' h' => h k' v' (by simp [h']))]
    rfl

theorem pdeEntries_mem {a : JVal} :
    ∀ {kvs : List (String × JVal)}, pdeEntries a kvs = true →
    ∀ k v, (k, v) ∈ kvs →
    (match jsGet a k with
     | some av => partialDeepEqual av v
     | none => false) = true := by
  intro kvs
  induction kvs with
  | nil => intro _ k v hm; cases hm
  | cons e rest ih =>
    obtain ⟨k0, v0⟩ := e
    intro h k v hm
    rw [pdeEntries, Bool.and_eq_true] at h
    rcases List.mem_cons.mp hm with h' | h'
    · cases h'
      exact h.1
    · exact ih h.2 k v h'

theorem pdeElems_of (a : JVal) :
    ∀ (ys : List JVal) (i : Nat),
    (∀ j (h : j < ys.length),
      (match jsGet a (idxKey (i + j)) with
       | some av => partialDeepEqual av (ys.get ⟨j, h⟩)
       | none => false) = true) →
    pdeElems a ys i = true := by
  intro ys
  induction ys with
  | nil => intro _ _; rw [pdeElems]
  | cons y ys ih =>
    intro i h
    rw [pdeElems]
    have h0 := h 0 (by simp)
    simp only [Nat.add_zero, List.get] at h0
    rw [h0]
    rw [ih (i + 1) (fun j hj => by
      have := h (j + 1) (by simpa using Nat.succ_lt_succ hj)
      simpa [Nat.add_assoc, Nat.add_comm 1 j] using this)]
    rfl

theorem pdeElems_mem {a : JVal} :
    ∀ {ys : List JVal} {i : Nat}, pdeElems a ys i = true →
    ∀ j (h : j < ys.length),
    (match jsGet a (idxKey (i + j)) with
     | some av => partialDeepEqual av (ys.get ⟨j, h⟩)
     | none => false) = true := by
  intro ys
  induction ys with
  | nil => intro _ _ j hj; simp at hj
  | cons y ys ih =>
    intro i h j hj
    rw [pdeElems, Bool.and_eq_true] at h
    cases j with
    | zero => simpa using h.1
    | succ j' =>
      have := ih h.2 j' (by simpa using Nat.lt_of_succ_lt_succ hj)
      simpa [Nat.add_assoc, Nat.add_comm 1 j'] using this

theorem lookupKey_mem :
    ∀ {kvs : List (String × JVal)} {k : String} {v : JVal},
    lookupKey kvs k = some v → (k, v) ∈ kvs := by
  intro kvs
  induction kvs with
  | nil => intro k v h; simp [lookupKey] at h
  | cons e rest ih =>
    obtain ⟨k0, v0⟩ := e
    intro k v h
    rw [lookupKey] at h
    by_cases hk : k0 == k
    · rw [if_pos hk] at h
      cases h
      have : k0 = k := by simpa using hk
      subst this
      simp
    · rw [if_neg hk] at h
      simp [ih h]

theorem lookupKey_of_mem :
    ∀ {kvs : List (String × JVal)} {k : String} {v : JVal},
    nodupStr (kvs.map Prod.fst) = true → (k, v) ∈ kvs →
    lookupKey kvs k = some v := by
  intro kvs
  induction kvs with
  | nil => intro k v _ hm; cases hm
  | cons e rest ih =>
    obtain ⟨k0, v0⟩ := e
    intro k v hnd hm
    rw [List.map_cons, nodupStr] at hnd
    simp only [Bool.and_eq_true, Bool.not_eq_true'] at hnd
    rcases List.mem_cons.mp hm with h' | h'
    · cases h'
      rw [lookupKey, if_pos (by simp)]
    · rw [lookupKey]
      have hk0 : (k0 == k) = false := by
        by_contra hc
        have hkk : k0 = k := by
          cases hbeq : (k0 == k) with
          | false => exact absurd hbeq hc
          | true => simpa using hbeq
        subst hkk
        have hmem : k0 ∈ rest.map Prod.fst := List.mem_map.mpr ⟨(k0, v), h', rfl⟩
        have hcont : (List.map Prod.fst rest).contains k0 = true :=
          List.elem_eq_true_of_mem hmem
        rw [hnd.1] at hcont
        cases hcont
      rw [if_neg (by simp [hk0])]
      exact ih hnd.2 h'

theorem mem_insertEntry {x e : String × JVal} :
    ∀ {l : List (String × JVal)}, x ∈ insertEntry e l ↔ x = e ∨ x ∈ l := by
  intro l
  induction l with
  | nil => simp [insertEntry]
  | cons f rest ih =>
    rw [insertEntry]
    by_cases h : keyLe e f = true
    · simp [h]
    · simp only [if_neg h, List.mem_cons, ih]
      tauto

theorem mem_sortEntries {x : String × JVal} :
    ∀ {l : List (String × JVal)}, x ∈ sortEntries l ↔ x ∈ l := by
  intro l
  induction l with
  | nil => simp [sortEntries]
  | cons f rest ih =>
    rw [sortEntries]
    rw [mem_insertEntry]
    simp [ih]

theorem canonElems_len :
    ∀ {xs ys : List JVal}, canonElems xs = canonElems ys →
    xs.length = ys.length := by
  intro xs
  induction xs with
  | nil => intro ys h; cases ys with
    | nil => rfl
    | cons y ys => rw [canonElems, canonElems] at h; cases h
  | cons x xs ih =>
    intro ys h
    cases ys with
    | nil => rw [canonElems, canonElems] at h; cases h
    | cons y ys =>
      rw [canonElems, canonElems] at h
      simp only [List.cons.injEq] at h
      simpa using ih h.2

theorem canonElems_get :
    ∀ {xs ys : List JVal}, canonElems xs = canonElems ys →
    ∀ j (h1 : j < xs.length) (h2 : j < ys.length),
    canonicalize (xs.get ⟨j, h1⟩) = canonicalize (ys.get ⟨j, h2⟩) := by
  intro xs
  induction xs with
  | nil => intro ys h j h1 h2; simp at h1
  | cons x xs ih =>
    intro ys h j h1 h2
    cases ys with
    | nil => simp at h2
    | cons y ys =>
      rw [canonElems, canonElems] at h
      simp only [List.cons.injEq] at h
      cases j with
      | zero => exact h.1
      | succ j' =>
        exact ih h.2 j' (Nat.lt_of_succ_lt_succ h1) (Nat.lt_of_succ_lt_succ h2)

theorem canonEntries_mem_of :
    ∀ {kvs : List (String × JVal)} {k : String} {v : JVal},
    (k, v) ∈ kvs → (k, canonicalize v) ∈ canonEntries kvs := by
  intro kvs
  induction kvs with
  | nil => intro k v h; cases h
  | cons e rest ih =>
    obtain ⟨k0, v0⟩ := e
    intro k v h
    rw [canonEntries]
    rcases List.mem_cons.mp h with h' | h'
    · cases h'
      simp
    · simp [ih h']

theorem canonEntries_mem_inv :
    ∀ {kvs : List (String × JVal)} {k : String} {c : JVal},
    (k, c) ∈ canonEntries kvs → ∃ v, (k, v) ∈ kvs ∧ c = canonicalize v := by
  intro kvs
  induction kvs with
  | nil => intro k c h; rw [canonEntries] at h; cases h
  | cons e rest ih =>
    obtain ⟨k0, v0⟩ := e
    intro k c h
    rw [canonEntries] at h
    rcases List.mem_cons.mp h with h' | h'
    · have hk : k = k0 ∧ c = canonicalize v0 := by simpa [Prod.ext_iff] using h'
      refine ⟨v0, ?_, hk.2⟩
      rw [hk.1]
      simp
    · obtain ⟨v, hm, hc⟩ := ih h'
      exact ⟨v, List.mem_cons_of_mem _ hm, hc⟩

theorem nodupKeysElems_mem :
    ∀ {xs : List JVal} {x : JVal}, nodupKeysElems xs = true → x ∈ xs →
    nodupKeysJ x = true := by
  intro xs
  induction xs with
  | nil => intro x _ h; cases h
  | cons y ys ih =>
    intro x h hm
    rw [nodupKeysElems, Bool.and_eq_true] at h
    rcases List.mem_cons.mp hm with h' | h'
    · rw [h']; exact h.1
    · exact ih h.2 h'

theorem nodupKeysEntries_mem :
    ∀ {kvs : List (String × JVal)} {k : String} {v : JVal},
    nodupKeysEntries kvs = true → (k, v) ∈ kvs → nodupKeysJ v = true := by
  intro kvs
  induction kvs with
  | nil => intro k v _ h; cases h
  | cons e rest ih =>
    obtain ⟨k0, v0⟩ := e
    intro k v h hm
    rw [nodupKeysEntries, Bool.and_eq_true] at h
    rcases List.mem_cons.mp hm with h' | h'
    · cases h'; exact h.1
    · exact ih h.2 h'

mutual

/-- Keys with equal hashes (equal canonical forms) match partially: the
recursive object-key walk of `partialDeepEqual` succeeds because every key
of `b` is found in `a` with a canonically-equal value. -/
theorem pde_of_canon_eq : ∀ (b a : JVal), nodupKeysJ a = true →
    canonicalize a = canonicalize b → partialDeepEqual a b = true
  | .jnull, a, hnd, hc => by
    have ha : a = .jnull := by cases a <;> simp_all [canonicalize]
    rw [ha]
    exact pde_refl _
  | .jbool x, a, hnd, hc => by
    have ha : a = .jbool x := by cases a <;> simp_all [canonicalize]
    rw [ha]
    exact pde_refl _
  | .jnum x, a, hnd, hc => by
    have ha : a = .jnum x := by cases a <;> simp_all [canonicalize]
    rw [ha]
    exact pde_refl _
  | .jstr x, a, hnd, hc => by
    have ha : a = .jstr x := by cases a <;> simp_all [canonicalize]
    rw [ha]
    exact pde_refl _
  | .jarr ys, a, hnd, hc => by
    obtain ⟨xs, rfl⟩ : ∃ xs, a = JVal.jarr xs := by
      cases a <;> simp_all [canonicalize]
    rw [canonicalize, canonicalize] at hc
    simp only [JVal.jarr.injEq] at hc
    have hlen := canonElems_len hc
    by_cases hab : ((JVal.jarr xs : JVal) == JVal.jarr ys) = true
    · rw [partialDeepEqual.eq_def, if_pos hab]
    · rw [partialDeepEqual.eq_def, if_neg hab]
      simp only [jtypeof, truthy, isObjectJS, bne_self_eq_false,
        Bool.false_eq_true, if_false, Bool.and_self, if_true]
      exact pdeElemsCanon ys (.jarr xs) 0 (fun j hj => by
        have hj' : j < xs.length := by omega
        refine ⟨xs.get ⟨j, hj'⟩, ?_, ?_, ?_⟩
        · show jsGet (JVal.jarr xs) (idxKey (0 + j)) = _
          rw [Nat.zero_add]
          simp [jsGet, parseIdx_idxKey, List.getElem?_eq_getElem hj',
            List.get_eq_getElem]
        · exact nodupKeysElems_mem (by simpa [nodupKeysJ] using hnd)
            (List.get_mem xs j hj')
        · exact canonElems_get hc j hj' hj)
  | .jobj bkvs, a, hnd, hc => by
    obtain ⟨akvs, rfl⟩ : ∃ akvs, a = JVal.jobj akvs := by
      cases a <;> simp_all [canonicalize]
    rw [canonicalize, canonicalize] at hc
    simp only [JVal.jobj.injEq] at hc
    rw [nodupKeysJ, Bool.and_eq_true] at hnd
    by_cases hab : ((JVal.jobj akvs : JVal) == JVal.jobj bkvs) = true
    · rw [partialDeepEqual.eq_def, if_pos hab]
    · rw [partialDeepEqual.eq_def, if_neg hab]
      simp only [jtypeof, truthy, isObjectJS, bne_self_eq_false,
        Bool.false_eq_true, if_false, Bool.and_self, if_true]
      exact pdeEntriesCanon bkvs (.jobj akvs) (fun k v hm => by
        have h1 : (k, canonicalize v) ∈ canonEntries bkvs := canonEntries_mem_of hm
        have h2 : (k, canonicalize v) ∈ sortEntries (canonEntries bkvs) :=
          mem_sortEntries.mpr h1
        rw [← hc] at h2
        have h3 : (k, canonicalize v) ∈ canonEntries akvs :=
          mem_sortEntries.mp h2
        obtain ⟨va, hmem, hcva⟩ := canonEntries_mem_inv h3
        refine ⟨va, ?_, ?_, hcva.symm⟩
        · show jsGet (JVal.jobj akvs) k = some va
          rw [jsGet]
          exact lookupKey_of_mem hnd.1 hmem
        · exact nodupKeysEntries_mem hnd.2 hmem)

theorem pdeElemsCanon : ∀ (l : List JVal) (a : JVal) (i : Nat),
    (∀ j (hj : j < l.length), ∃ av, jsGet a (idxKey (i + j)) = some av ∧
      nodupKeysJ av = true ∧ canonicalize av = canonicalize (l.get ⟨j, hj⟩)) →
    pdeElems a l i = true
  | [], a, i, _ => by rw [pdeElems]
  | y :: ys, a, i, h => by
    obtain ⟨av, hget, hnd, hcv⟩ := h 0 (by simp)
    have hget0 : jsGet a (idxKey i) = some av := by simpa using hget
    have hy : canonicalize av = canonicalize y := by simpa using hcv
    have h1 := pde_of_canon_eq y av hnd hy
    have hrec := pdeElemsCanon ys a (i + 1) (fun j hj => by
      obtain ⟨av', hget', hnd', hcv'⟩ := h (j + 1) (by simpa using Nat.succ_lt_succ hj)
      refine ⟨av', ?_, hnd', ?_⟩
      · rw [show i + 1 + j = i + (j + 1) from by omega]
        exact hget'
      · simpa using hcv')
    simp [pdeElems, hget0, h1, hrec]

theorem pdeEntriesCanon : ∀ (l : List (String × JVal)) (a : JVal),
    (∀ k v, (k, v) ∈ l → ∃ va, jsGet a k = some va ∧ nodupKeysJ va = true ∧
      canonicalize va = canonicalize v) →
    pdeEntries a l = true
  | [], a, _ => by rw [pdeEntries]
  | (k, v) :: rest, a, h => by
    obtain ⟨va, hget, hnd, hcv⟩ := h k v (by simp)
    have h1 := pde_of_canon_eq v va hnd hcv
    have hrec := pdeEntriesCanon rest a (fun k' v' h' => h k' v' (by simp [h']))
    simp [pdeEntries, hget, h1, hrec]

end

mutual

/-- A value partially matches every recursive structural subset of itself. -/
theorem pde_self_subset : ∀ (b' b : JVal), subsetJ b' b = true →
    partialDeepEqual b b' = true
  | .jnull, b, hs => by
    have hb : b = .jnull := by
      rw [subsetJ.eq_def] at hs
      cases b <;> simp_all
    rw [hb]
    exact pde_refl _
  | .jbool x, b, hs => by
    have hb : b = .jbool x := by
      rw [subsetJ.eq_def] at hs
      cases b <;> simp_all
    rw [hb]
    exact pde_refl _
  | .jnum x, b, hs => by
    have hb : b = .jnum x := by
      rw [subsetJ.eq_def] at hs
      cases b <;> simp_all
    rw [hb]
    exact pde_refl _
  | .jstr x, b, hs => by
    have hb : b = .jstr x := by
      rw [subsetJ.eq_def] at hs
      cases b <;> simp_all
    rw [hb]
    exact pde_refl _
  | .jarr xs', b, hs => by
    cases b with
    | jarr xs =>
      have hse : subsetElems xs' xs = true := by
        rw [subsetJ.eq_def] at hs
        simpa using hs
      by_cases hab : ((JVal.jarr xs : JVal) == JVal.jarr xs') = true
      · rw [partialDeepEqual.eq_def, if_pos hab]
      · rw [partialDeepEqual.eq_def, if_neg hab]
        simp only [jtypeof, truthy, isObjectJS, bne_self_eq_false,
          Bool.false_eq_true, if_false, Bool.and_self, if_true]
        exact pdeElemsSub xs' xs 0 (by simpa using hse)
    | jnull => rw [subsetJ.eq_def] at hs; simp at hs
    | jbool y => rw [subsetJ.eq_def] at hs; simp at hs
    | jnum y => rw [subsetJ.eq_def] at hs; simp at hs
    | jstr y => rw [subsetJ.eq_def] at hs; simp at hs
    | jobj kvs => rw [subsetJ.eq_def] at hs; simp at hs
  | .jobj kvs', b, hs => by
    cases b with
    | jobj kvs =>
      have hse : subsetEntries kvs' kvs = true := by
        rw [subsetJ.eq_def] at hs
        simpa using hs
      by_cases hab : ((JVal.jobj kvs : JVal) == JVal.jobj kvs') = true
      · rw [partialDeepEqual.eq_def, if_pos hab]
      · rw [partialDeepEqual.eq_def, if_neg hab]
        simp only [jtypeof, truthy, isObjectJS, bne_self_eq_false,
          Bool.false_eq_true, if_false, Bool.and_self, if_true]
        exact pdeEntriesSub kvs' kvs hse
    | jnull => rw [subsetJ.eq_def] at hs; simp at hs
    | jbool y => rw [subsetJ.eq_def] at hs; simp at hs
    | jnum y => rw [subsetJ.eq_def] at hs; simp at hs
    | jstr y => rw [subsetJ.eq_def] at hs; simp at hs
    | jarr ys => rw [subsetJ.eq_def] at hs; simp at hs

theorem pdeEntriesSub : ∀ (kvs' kvs : List (String × JVal)),
    subsetEntries kvs' kvs = true → pdeEntries (.jobj kvs) kvs' = true
  | [], kvs, _ => by rw [pdeEntries]
  | (k, v') :: rest, kvs, hs => by
    rw [subsetEntries, Bool.and_eq_true] at hs
    obtain ⟨hm, hrest⟩ := hs
    cases hlk : lookupKey kvs k with
    | none => rw [hlk] at hm; simp at hm
    | some v =>
      rw [hlk] at hm
      have hpde := pde_self_subset v' v hm
      have hrec := pdeEntriesSub rest kvs hrest
      simp [pdeEntries, jsGet, hlk, hpde, hrec]

theorem pdeElemsSub : ∀ (xs' xs : List JVal) (i : Nat),
    subsetElems xs' (xs.drop i) = true → pdeElems (.jarr xs) xs' i = true
  | [], xs, i, _ => by rw [pdeElems]
  | y' :: rest', xs, i, hs => by
    cases hd : xs.drop i with
    | nil => rw [hd, subsetElems] at hs; cases hs
    | cons x t =>
      rw [hd, subsetElems, Bool.and_eq_true] at hs
      have hx : xs[i]? = some x := by
        rw [← List.head?_drop, hd, List.head?_cons]
      have hdrop : xs.drop (i + 1) = t := by
        have : xs.drop (i + 1) = (xs.drop i).drop 1 := by
          rw [List.drop_drop, Nat.add_comm]
        rw [this, hd, List.drop_one, List.tail_cons]
      have hpde := pde_self_subset y' x hs.1
      have hrec := pdeElemsSub rest' xs (i + 1) (by rw [hdrop]; exact hs.2)
      simp [pdeElems, jsGet, parseIdx_idxKey, hx, hpde, hrec]

end

mutual

/-- Partial matching is monotone in its second argument under recursive
structural subsets. -/
theorem pde_subset_mono : ∀ (b' a b : JVal), partialDeepEqual a b = true →
    subsetJ b' b = true → partialDeepEqual a b' = true
  | .jnull, a, b, h, hs => by
    have hb : b = .jnull := by
      rw [subsetJ.eq_def] at hs
      cases b <;> simp_all
    rw [← hb]
    exact h
  | .jbool x, a, b, h, hs => by
    have hb : b = .jbool x := by
      rw [subsetJ.eq_def] at hs
      cases b <;> simp_all
    rw [← hb]
    exact h
  | .jnum x, a, b, h, hs => by
    have hb : b = .jnum x := by
      rw [subsetJ.eq_def] at hs
      cases b <;> simp_all
    rw [← hb]
    exact h
  | .jstr x, a, b, h, hs => by
    have hb : b = .jstr x := by
      rw [subsetJ.eq_def] at hs
      cases b <;> simp_all
    rw [← hb]
    exact h
  | .jarr xs', a, b, h, hs => by
    cases b with
    | jarr xs =>
      have hse : subsetElems xs' xs = true := by
        rw [subsetJ.eq_def] at hs
        simpa using hs
      by_cases haeq : (a == JVal.jarr xs) = true
      · have ha : a = JVal.jarr xs := by simpa using haeq
        rw [ha]
        exact pde_self_subset (.jarr xs') (.jarr xs) (by
          rw [subsetJ.eq_def]
          simpa using hse)
      · rw [partialDeepEqual.eq_def, if_neg haeq] at h
        by_cases h1 : (jtypeof a != jtypeof (JVal.jarr xs)) = true
        · rw [if_pos h1] at h; cases h
        · rw [if_neg h1] at h
          by_cases h2 : (truthy a && truthy (JVal.jarr xs) && isObjectJS a
              && isObjectJS (JVal.jarr xs)) = true
          · rw [if_pos h2] at h
            have hpe : pdeElems a xs 0 = true := h
            by_cases hab : (a == JVal.jarr xs') = true
            · rw [partialDeepEqual.eq_def, if_pos hab]
            · rw [partialDeepEqual.eq_def, if_neg hab]
              have h1' : (jtypeof a != jtypeof (JVal.jarr xs')) = false := by
                simp only [Bool.not_eq_true] at h1
                simpa [jtypeof] using h1
              rw [h1']
              have h2' : (truthy a && truthy (JVal.jarr xs') && isObjectJS a
                  && isObjectJS (JVal.jarr xs')) = true := by
                simp only [Bool.and_eq_true] at h2 ⊢
                exact ⟨⟨⟨h2.1.1.1, rfl⟩, h2.1.2⟩, rfl⟩
              rw [if_neg (by simp), if_pos h2']
              exact pdeElemsSubMono xs' a xs 0 hpe hse
          · rw [if_neg h2] at h; cases h
    | jnull => rw [subsetJ.eq_def] at hs; simp at hs
    | jbool y => rw [subsetJ.eq_def] at hs; simp at hs
    | jnum y => rw [subsetJ.eq_def] at hs; simp at hs
    | jstr y => rw [subsetJ.eq_def] at hs; simp at hs
    | jobj kvs => rw [subsetJ.eq_def] at hs; simp at hs
  | .jobj kvs', a, b, h, hs => by
    cases b with
    | jobj kvs =>
      have hse : subsetEntries kvs' kvs = true := by
        rw [subsetJ.eq_def] at hs
        simpa using hs
      by_cases haeq : (a == JVal.jobj kvs) = true
      · have ha : a = JVal.jobj kvs := by simpa using haeq
        rw [ha]
        exact pde_self_subset (.jobj kvs') (.jobj kvs) (by
          rw [subsetJ.eq_def]
          simpa using hse)
      · rw [partialDeepEqual.eq_def, if_neg haeq] at h
        by_cases h1 : (jtypeof a != jtypeof (JVal.jobj kvs)) = true
        · rw [if_pos h1] at h; cases h
        · rw [if_neg h1] at h
          by_cases h2 : (truthy a && truthy (JVal.jobj kvs) && isObjectJS a
              && isObjectJS (JVal.jobj kvs)) = true
          · rw [if_pos h2] at h
            have hpe : pdeEntries a kvs = true := h
            by_cases hab : (a == JVal.jobj kvs') = true
            · rw [partialDeepEqual.eq_def, if_pos hab]
            · rw [partialDeepEqual.eq_def, if_neg hab]
              have h1' : (jtypeof a != jtypeof (JVal.jobj kvs')) = false := by
                simp only [Bool.not_eq_true] at h1
                simpa [jtypeof] using h1
              rw [h1']
              have h2' : (truthy a && truthy (JVal.jobj kvs') && isObjectJS a
                  && isObjectJS (JVal.jobj kvs')) = true := by
                simp only [Bool.and_eq_true] at h2 ⊢
                exact ⟨⟨⟨h2.1.1.1, rfl⟩, h2.1.2⟩, rfl⟩
              rw [if_neg (by simp), if_pos h2']
              exact pdeEntriesSubMono kvs' a kvs hpe hse
          · rw [if_neg h2] at h; cases h
    | jnull => rw [subsetJ.eq_def] at hs; simp at hs
    | jbool y => rw [subsetJ.eq_def] at hs; simp at hs
    | jnum y => rw [subsetJ.eq_def] at hs; simp at hs
    | jstr y => rw [subsetJ.eq_def] at hs; simp at hs
    | jarr ys => rw [subsetJ.eq_def] at hs; simp at hs

theorem pdeEntriesSubMono : ∀ (kvs' : List (String × JVal)) (a : JVal)
    (kvs : List (String × JVal)),
    pdeEntries a kvs = true → subsetEntries kvs' kvs = true →
    pdeEntries a kvs' = true
  | [], a, kvs, _, _ => by rw [pdeEntries]
  | (k, v') :: rest, a, kvs, hpe, hs => by
    rw [subsetEntries, Bool.and_eq_true] at hs
    obtain ⟨hm, hrest⟩ := hs
    cases hlk : lookupKey kvs k with
    | none => rw [hlk] at hm; simp at hm
    | some v =>
      rw [hlk] at hm
      have hmem := lookupKey_mem hlk
      have hmv := pdeEntries_mem hpe k v hmem
      cases hga : jsGet a k with
      | none => rw [hga] at hmv; simp at hmv
      | some av =>
        rw [hga] at hmv
        have hpav : partialDeepEqual av v = true := hmv
        have hstep := pde_subset_mono v' av v hpav hm
        have hrec := pdeEntriesSubMono rest a kvs hpe hrest
        simp [pdeEntries, hga, hstep, hrec]

theorem pdeElemsSubMono : ∀ (xs' : List JVal) (a : JVal) (xs : List JVal)
    (i : Nat),
    pdeElems a xs i = true → subsetElems xs' xs = true →
    pdeElems a xs' i = true
  | [], a, xs, i, _, _ => by rw [pdeElems]
  | y' :: rest', a, xs, i, hpe, hs => by
    cases xs with
    | nil => rw [subsetElems] at hs; cases hs
    | cons x t =>
      rw [subsetElems, Bool.and_eq_true] at hs
      rw [pdeElems, Bool.and_eq_true] at hpe
      cases hga : jsGet a (idxKey i) with
      | none =>
        have := hpe.1
        rw [hga] at this
        simp at this
      | some av =>
        have hpav : partialDeepEqual av x = true := by
          have := hpe.1
          rw [hga] at this
          exact this
        have hstep := pde_subset_mono y' av x hpav hs.1
        have hrec := pdeElemsSubMono rest' a t (i + 1) hpe.2 hs.2
        simp [pdeElems, hga, hstep, hrec]

end

/-- Claim C7: partial key matching is reflexive; keys that match exactly
(equal hashes under the default hash function) match partially; and partial
matching is monotone when the filter key is replaced by a recursive
structural subset of it. -/
theorem claim7_partial_match :
    (∀ a : JVal, partialDeepEqual a a = true) ∧
    (∀ a b : JVal, nodupKeysJ a = true →
      hashMerapiKey a = hashMerapiKey b → partialMatchKey a b = true) ∧
    (∀ a b b' : JVal, partialMatchKey a b = true → subsetJ b' b = true →
      partialMatchKey a b' = true) := by
  refine ⟨pde_refl, ?_, ?_⟩
  · intro a b hnd hh
    have hdata : ser (canonicalize a) = ser (canonicalize b) :=
      congrArg String.data hh
    have hcanon := (ser_sep (canonicalize a) (canonicalize b) [] []
      (by simpa using hdata) nonDigitHead_nil nonDigitHead_nil).1
    exact pde_of_canon_eq b a hnd hcanon
  · intro a b b' hp hs
    exact pde_subset_mono b' a b hp hs

/-- Witness for C7: an object key matches a key with the same entries in a
different order (equal hashes), and matching survives dropping an entry of
the filter key. -/
theorem claim7_partial_match_witness :
    partialMatchKey (JVal.jobj [("b", JVal.jnum 2), ("a", JVal.jnum 1)])
      (JVal.jobj [("a", JVal.jnum 1), ("b", JVal.jnum 2)]) = true ∧
    partialMatchKey (JVal.jobj [("b", JVal.jnum 2), ("a", JVal.jnum 1)])
      (JVal.jobj [("a", JVal.jnum 1)]) = true :=
  ⟨claim7_partial_match.2.1 (JVal.jobj [("b", JVal.jnum 2), ("a", JVal.jnum 1)])
     (JVal.jobj [("a", JVal.jnum 1), ("b", JVal.jnum 2)]) (by decide) (by decide),
   claim7_partial_match.2.2 (JVal.jobj [("b", JVal.jnum 2), ("a", JVal.jnum 1)])
     (JVal.jobj [("a", JVal.jnum 1), ("b", JVal.jnum 2)])
     (JVal.jobj [("a", JVal.jnum 1)])
     (claim7_partial_match.2.1 (JVal.jobj [("b", JVal.jnum 2), ("a", JVal.jnum 1)])
       (JVal.jobj [("a", JVal.jnum 1), ("b", JVal.jnum 2)]) (by decide) (by decide))
     (by decide)⟩


/-! ## Claims 9 and 10: `MerapiCache.find`, `getMerapiData`, `ensureMerapiData`

`MerapiCache.find` (merapi-cache.ts) calls `parseFilterArgs(arg1, arg2)`,
which for a key argument returns `[{ ...arg2, queryKey: arg1 }, ...]`
(utils.ts line 136): the key is stored under the property `queryKey`.
`matchMerapi` (utils.ts) however destructures `merapiKey` from the filter
object; the two embeddings below keep both fields so the mismatch is
visible.  Cache entries carry the fields `matchMerapi` reads. -/

structure MEntry where
  merapiKey : JVal
  merapiHash : String
  dataVal : Option JVal
  fetchStatus : FetchStatus
  activeB : Bool
  staleB : Bool
deriving DecidableEq

inductive FilterType where
  | all
  | active
  | inactive
deriving DecidableEq, Repr

structure MFilters where
  ty : FilterType
  exactF : Option Bool
  merapiKey : Option JVal
  queryKey : Option JVal
  stale : Option Bool
  fStatus : Option FetchStatus
deriving DecidableEq

/-- The empty filter object `{}` (every field undefined, `type` defaulting
to `'all'` as in `matchMerapi`). -/
def emptyFilters : MFilters :=
  { ty := FilterType.all, exactF := none, merapiKey := none,
    queryKey := none, stale := none, fStatus := none }

/-- `isMerapiKey` of utils.ts: `Array.isArray(value)`. -/
def isMerapiKeyJ : JVal → Bool
  | JVal.jarr _ => true
  | _ => false

/-- `parseFilterArgs(arg1, arg2)` when `arg1` is a merapi key:
`[{ ...arg2, queryKey: arg1 }, arg3]` — the key goes into `queryKey`. -/
def parseFilterArgsKey (key : JVal) (f : MFilters) : MFilters :=
  { f with queryKey := some key }

/-- `matchMerapi(filters, merapi)` of utils.ts lines 155-206: the key test
destructures `merapiKey` from the filters (never `queryKey`); with the
default hasher `hashMerapiKeyByOptions` is `hashMerapiKey`.  An `Option`
field models an absent (undefined) property; `exact` is tested for
truthiness, so only `some true` takes the hash branch. -/
def matchMerapi (filters : MFilters) (m : MEntry) : Bool :=
  (match filters.merapiKey with
   | some k =>
     if isMerapiKeyJ k then
       if filters.exactF = some true then m.merapiHash == hashMerapiKey k
       else partialMatchKey m.merapiKey k
     else true
   | none => true) &&
  (match filters.ty with
   | FilterType.all => true
   | FilterType.active => m.activeB
   | FilterType.inactive => !m.activeB) &&
  (match filters.stale with
   | some b => m.staleB == b
   | none => true) &&
  (match filters.fStatus with
   | some fs => fs == m.fetchStatus
   | none => true)

/-- `MerapiCache.find(key, filters?)` of merapi-cache.ts lines 163-174:
parse the arguments (putting the key under `queryKey`), default
`filters.exact` to `true` when it is undefined, and return the first cache
entry accepted by `matchMerapi`. -/
def findEntry (cache : List MEntry) (key : JVal) (f : MFilters) : Option MEntry :=
  let filters := parseFilterArgsKey key f
  let filters :=
    match filters.exactF with
    | none => { filters with exactF := some true }
    | some _ => filters
  cache.find? (fun m => matchMerapi filters m)

/-- `MerapiClient.getMerapiData(key)`: `this.merapiCache.find(key)?.state.data`. -/
def getMerapiData (cache : List MEntry) (key : JVal) : Option JVal :=
  match findEntry cache key emptyFilters with
  | some m => m.dataVal
  | none => none

inductive EnsureResult where
  | resolved (d : JVal)
  | fetched
deriving DecidableEq

/-- `MerapiClient.ensureMerapiData` (merapi-client.ts lines 188-194):
`const cachedData = this.getMerapiData(parsedOptions.merapiKey!); return
cachedData ? Promise.resolve(cachedData) : this.fetchMerapi(parsedOptions)`.
The conditional tests the cached value for JS truthiness. -/
def ensureMerapiData (cache : List MEntry) (key : JVal) : EnsureResult :=
  match getMerapiData cache key with
  | some d => if truthy d then EnsureResult.resolved d else EnsureResult.fetched
  | none => EnsureResult.fetched

/-- An entry whose key is `["a"]`, hashed with the default hasher. -/
def entryA : MEntry :=
  { merapiKey := JVal.jarr [JVal.jstr "a"],
    merapiHash := hashMerapiKey (JVal.jarr [JVal.jstr "a"]),
    dataVal := some (JVal.jnum 1),
    fetchStatus := FetchStatus.idle,
    activeB := false, staleB := false }

/-- An entry whose key is `["k"]` holding the falsy cached datum `0`. -/
def entryK0 : MEntry :=
  { merapiKey := JVal.jarr [JVal.jstr "k"],
    merapiHash := hashMerapiKey (JVal.jarr [JVal.jstr "k"]),
    dataVal := some (JVal.jnum 0),
    fetchStatus := FetchStatus.idle,
    activeB := false, staleB := false }

/-- C10: `MerapiCache.find` does set `exact := true` when the filter leaves
it undefined, but the key filter is then ignored entirely:
`parseFilterArgs` stores the key under `queryKey` while `matchMerapi` reads
`merapiKey`.  Here `find(["b"])` on a cache whose only entry has key
`["a"]` returns that entry although the hashes differ and the keys do not
even partially match — refuting "returns the first entry whose merapiHash
equals the hash of the given key and never returns an entry that only
partially matches". -/
theorem claim10_counterexample :
    findEntry [entryA] (JVal.jarr [JVal.jstr "b"]) emptyFilters = some entryA ∧
    hashMerapiKey (JVal.jarr [JVal.jstr "b"]) ≠ entryA.merapiHash ∧
    partialMatchKey entryA.merapiKey (JVal.jarr [JVal.jstr "b"]) = false := by
  decide

/-- C9: `ensureMerapiData` tests the cached value for truthiness
(`cachedData ? Promise.resolve(cachedData) : this.fetchMerapi(...)`), so a
cache that holds the falsy datum `0` for the requested key makes
`ensureMerapiData` fetch even though `getMerapiData` returns that datum —
refuting "returns the cached data and performs no fetch whenever the cache
holds data for that key … including falsy values such as 0". -/
theorem claim9_counterexample :
    getMerapiData [entryK0] (JVal.jarr [JVal.jstr "k"]) = some (JVal.jnum 0) ∧
    ensureMerapiData [entryK0] (JVal.jarr [JVal.jstr "k"]) = EnsureResult.fetched := by
  decide



/-! ## Claim 1: `replaceEqualDeep` and `replaceData` structural sharing

JavaScript values with observable reference identity: composite values
(arrays and plain objects) carry an allocation id, `===` on composites is
id comparison while primitives compare by value.  `replaceEqualDeep`
(utils.ts lines 301-329) is embedded as `jrepl`, threading an allocation
counter: a freshly built copy receives the next id.  `replaceData`
(utils.ts lines 372-392) dispatches on the options exactly as the source
if-chain does. -/

inductive HVal where
  | hnull
  | hundef
  | hbool (b : Bool)
  | hnum (n : Int)
  | hstr (s : String)
  | harr (id : Nat) (xs : List HVal)
  | hobj (id : Nat) (kvs : List (String × HVal))

mutual

def beqH : HVal → HVal → Bool
  | .hnull, .hnull => true
  | .hundef, .hundef => true
  | .hbool a, .hbool b => a == b
  | .hnum a, .hnum b => a == b
  | .hstr a, .hstr b => a == b
  | .harr i xs, .harr j ys => i == j && beqHList xs ys
  | .hobj i akvs, .hobj j bkvs => i == j && beqHEntries akvs bkvs
  | _, _ => false

def beqHList : List HVal → List HVal → Bool
  | [], [] => true
  | x :: xs, y :: ys => beqH x y && beqHList xs ys
  | _, _ => false

def beqHEntries : List (String × HVal) → List (String × HVal) → Bool
  | [], [] => true
  | (k1, v1) :: xs, (k2, v2) :: ys => k1 == k2 && beqH v1 v2 && beqHEntries xs ys
  | _, _ => false

end

mutual

theorem beqH_iff : ∀ (a b : HVal), beqH a b = true ↔ a = b
  | .hnull, b => by cases b <;> simp [beqH]
  | .hundef, b => by cases b <;> simp [beqH]
  | .hbool x, b => by cases b <;> simp [beqH]
  | .hnum x, b => by cases b <;> simp [beqH]
  | .hstr x, b => by cases b <;> simp [beqH]
  | .harr i xs, b => by
    cases b <;> simp [beqH]
    intro _
    exact beqHList_iff xs _
  | .hobj i kvs, b => by
    cases b <;> simp [beqH]
    intro _
    exact beqHEntries_iff kvs _

theorem beqHList_iff : ∀ (xs ys : List HVal), beqHList xs ys = true ↔ xs = ys
  | [], ys => by cases ys <;> simp [beqHList]
  | x :: xs, [] => by simp [beqHList]
  | x :: xs, y :: ys => by
    simp [beqHList, beqH_iff x y, beqHList_iff xs ys]

theorem beqHEntries_iff : ∀ (xs ys : List (String × HVal)),
    beqHEntries xs ys = true ↔ xs = ys
  | [], ys => by cases ys <;> simp [beqHEntries]
  | (k, v) :: xs, [] => by simp [beqHEntries]
  | (k1, v1) :: xs, (k2, v2) :: ys => by
    simp [beqHEntries, beqH_iff v1 v2, beqHEntries_iff xs ys, and_assoc]

end

instance : DecidableEq HVal :=
  fun a b => decidable_of_iff (beqH a b = true) (beqH_iff a b)

/-- JavaScript `===`: primitives by value, composites by allocation id. -/
def jsEq : HVal → HVal → Bool
  | .hnull, .hnull => true
  | .hundef, .hundef => true
  | .hbool a, .hbool b => a == b
  | .hnum a, .hnum b => a == b
  | .hstr a, .hstr b => a == b
  | .harr i _, .harr j _ => i == j
  | .hobj i _, .hobj j _ => i == j
  | _, _ => false

def idOf : HVal → Option Nat
  | .harr i _ => some i
  | .hobj i _ => some i
  | _ => none

/-- `a[i]` for an array: the element, or `undefined` out of range. -/
def hgetIdx : List HVal → Nat → HVal
  | [], _ => HVal.hundef
  | x :: _, 0 => x
  | _ :: xs, n + 1 => hgetIdx xs n

/-- `a[k]` for an object: the first binding of `k`, or `undefined`. -/
def hgetKey : List (String × HVal) → String → HVal
  | [], _ => HVal.hundef
  | (k, v) :: rest, key => if k == key then v else hgetKey rest key

mutual

/-- The spec's "deeply equal" relation, read off from the source's
return-`a` criterion of `replaceEqualDeep`: primitives by value, arrays
positionally with equal lengths, objects by equal key counts with, for
every binding `(k, v)` of `b`, `a[k]` deeply equal to `v`. -/
def deepEqual : HVal → HVal → Bool
  | .hnull, .hnull => true
  | .hundef, .hundef => true
  | .hbool a, .hbool b => a == b
  | .hnum a, .hnum b => a == b
  | .hstr a, .hstr b => a == b
  | .harr _ xs, .harr _ ys => deepList xs ys
  | .hobj _ akvs, .hobj _ bkvs =>
      akvs.length == bkvs.length && deepEntries akvs bkvs
  | _, _ => false

def deepList : List HVal → List HVal → Bool
  | [], [] => true
  | x :: xs, y :: ys => deepEqual x y && deepList xs ys
  | _, _ => false

def deepEntries (akvs : List (String × HVal)) : List (String × HVal) → Bool
  | [] => true
  | (k, v) :: rest => deepEqual (hgetKey akvs k) v && deepEntries akvs rest

end

mutual

/-- `replaceEqualDeep(a, b)` with an allocation counter: `if (a === b)
return a`; if both plain arrays or both plain objects, rebuild from `b`'s
keys with `copy[key] = replaceEqualDeep(a[key], b[key])`, counting the
children for which `copy[key] === a[key]`, and return `a` when
`aSize === bSize && equalItems === aSize`, else the fresh copy; otherwise
return `b`. -/
def jrepl (cnt : Nat) (a b : HVal) : HVal × Nat :=
  if jsEq a b then (a, cnt)
  else
    match a, b with
    | .harr i axs, .harr _ bxs =>
        if axs.length == bxs.length && (jreplArr cnt axs bxs).2.1 == axs.length then
          (HVal.harr i axs, (jreplArr cnt axs bxs).2.2)
        else
          (HVal.harr (jreplArr cnt axs bxs).2.2 (jreplArr cnt axs bxs).1,
            (jreplArr cnt axs bxs).2.2 + 1)
    | .hobj i akvs, .hobj _ bkvs =>
        if akvs.length == bkvs.length && (jreplObj cnt akvs bkvs).2.1 == akvs.length then
          (HVal.hobj i akvs, (jreplObj cnt akvs bkvs).2.2)
        else
          (HVal.hobj (jreplObj cnt akvs bkvs).2.2 (jreplObj cnt akvs bkvs).1,
            (jreplObj cnt akvs bkvs).2.2 + 1)
    | _, b => (b, cnt)

/-- The loop over `b`'s indices: (children, equalItems, counter). -/
def jreplArr (cnt : Nat) : List HVal → List HVal → List HVal × Nat × Nat
  | _, [] => ([], 0, cnt)
  | [], b :: bs =>
      ((jrepl cnt HVal.hundef b).1 :: (jreplArr (jrepl cnt HVal.hundef b).2 [] bs).1,
        (if jsEq (jrepl cnt HVal.hundef b).1 HVal.hundef then 1 else 0)
          + (jreplArr (jrepl cnt HVal.hundef b).2 [] bs).2.1,
        (jreplArr (jrepl cnt HVal.hundef b).2 [] bs).2.2)
  | a :: axs, b :: bs =>
      ((jrepl cnt a b).1 :: (jreplArr (jrepl cnt a b).2 axs bs).1,
        (if jsEq (jrepl cnt a b).1 a then 1 else 0)
          + (jreplArr (jrepl cnt a b).2 axs bs).2.1,
        (jreplArr (jrepl cnt a b).2 axs bs).2.2)

/-- The loop over `Object.keys(b)`: (children, equalItems, counter). -/
def jreplObj (cnt : Nat) (akvs : List (String × HVal)) :
    List (String × HVal) → List (String × HVal) × Nat × Nat
  | [] => ([], 0, cnt)
  | (k, v) :: rest =>
      ((k, (jrepl cnt (hgetKey akvs k) v).1)
          :: (jreplObj (jrepl cnt (hgetKey akvs k) v).2 akvs rest).1,
        (if jsEq (jrepl cnt (hgetKey akvs k) v).1 (hgetKey akvs k) then 1 else 0)
          + (jreplObj (jrepl cnt (hgetKey akvs k) v).2 akvs rest).2.1,
        (jreplObj (jrepl cnt (hgetKey akvs k) v).2 akvs rest).2.2)

end

/-- The `structuralSharing` option: undefined, a boolean, or a function. -/
inductive StructuralSharingOpt where
  | defaultOpt
  | boolOpt (b : Bool)
  | fnOpt (f : HVal → HVal → HVal)

structure ReplOptions where
  isDataEqual : Option (HVal → HVal → Bool)
  structuralSharing : StructuralSharingOpt

def defaultReplOptions : ReplOptions :=
  { isDataEqual := none, structuralSharing := StructuralSharingOpt.defaultOpt }

/-- `replaceData({prevData, data, options})` of utils.ts lines 372-392:
use `prevData` when `options.isDataEqual?.(prevData, data)` is truthy, a
custom `structuralSharing` function when given, `data` when
`structuralSharing === false`, and `replaceEqualDeep(prevData, data)`
otherwise. -/
def replaceData (cnt : Nat) (opts : ReplOptions) (prevData data : HVal) :
    HVal × Nat :=
  if (match opts.isDataEqual with
      | some f => f prevData data
      | none => false) then
    (prevData, cnt)
  else
    match opts.structuralSharing with
    | StructuralSharingOpt.fnOpt f => (f prevData data, cnt)
    | StructuralSharingOpt.boolOpt false => (data, cnt)
    | _ => jrepl cnt prevData data

mutual

/-- Every allocation id occurring in the value is below `n`. -/
def idsBelow (n : Nat) : HVal → Bool
  | .harr i xs => decide (i < n) && idsBelowList n xs
  | .hobj i kvs => decide (i < n) && idsBelowEntries n kvs
  | _ => true

def idsBelowList (n : Nat) : List HVal → Bool
  | [] => true
  | x :: xs => idsBelow n x && idsBelowList n xs

def idsBelowEntries (n : Nat) : List (String × HVal) → Bool
  | [] => true
  | (_, v) :: rest => idsBelow n v && idsBelowEntries n rest

end

mutual

/-- Some composite subterm carries the allocation id `m`. -/
def idOccurs (m : Nat) : HVal → Bool
  | .harr i xs => m == i || idOccursList m xs
  | .hobj i kvs => m == i || idOccursEntries m kvs
  | _ => false

def idOccursList (m : Nat) : List HVal → Bool
  | [] => false
  | x :: xs => idOccurs m x || idOccursList m xs

def idOccursEntries (m : Nat) : List (String × HVal) → Bool
  | [] => false
  | (_, v) :: rest => idOccurs m v || idOccursEntries m rest

end

mutual

/-- All composite subterms of a value, the value included. -/
def subNodes : HVal → List HVal
  | .harr i xs => HVal.harr i xs :: subNodesList xs
  | .hobj i kvs => HVal.hobj i kvs :: subNodesEntries kvs
  | _ => []

def subNodesList : List HVal → List HVal
  | [] => []
  | x :: xs => subNodes x ++ subNodesList xs

def subNodesEntries : List (String × HVal) → List HVal
  | [] => []
  | (_, v) :: rest => subNodes v ++ subNodesEntries rest

end

/-- Two nodes with the same allocation id must be the same value. -/
def sameIdEq (x y : HVal) : Bool :=
  match idOf x, idOf y with
  | some i, some j => if i = j then beqH x y else true
  | _, _ => true

/-- Heap consistency of a pool of nodes: equal ids imply equal values. -/
def consistList (l : List HVal) : Bool :=
  l.all (fun x => l.all (fun y => sameIdEq x y))

/-- A pair of values drawn from one consistent heap. -/
def pairWF (a b : HVal) : Bool := consistList (subNodes a ++ subNodes b)

mutual

/-- No object subterm binds the same key twice. -/
def nodupKeysH : HVal → Bool
  | .harr _ xs => nodupKeysHList xs
  | .hobj _ kvs => nodupStr (kvs.map Prod.fst) && nodupKeysHEntries kvs
  | _ => true

def nodupKeysHList : List HVal → Bool
  | [] => true
  | x :: xs => nodupKeysH x && nodupKeysHList xs

def nodupKeysHEntries : List (String × HVal) → Bool
  | [] => true
  | (_, v) :: rest => nodupKeysH v && nodupKeysHEntries rest

end




theorem jsEq_refl : ∀ a : HVal, jsEq a a = true := by
  intro a
  cases a <;> simp [jsEq]

/-- With no duplicate keys, lookup of a bound key returns its value. -/
theorem hgetKey_nodup : ∀ (kvs : List (String × HVal)) (k : String) (v : HVal),
    nodupStr (kvs.map Prod.fst) = true → (k, v) ∈ kvs → hgetKey kvs k = v := by
  intro kvs
  induction kvs with
  | nil => intro k v _ hm; cases hm
  | cons e rest ih =>
    obtain ⟨k0, v0⟩ := e
    intro k v hnd hm
    have hnd' : (!((rest.map Prod.fst).contains k0)
        && nodupStr (rest.map Prod.fst)) = true := hnd
    rw [Bool.and_eq_true, Bool.not_eq_true'] at hnd'
    have hk0mem : k0 ∉ rest.map Prod.fst := by
      simpa using hnd'.1
    rcases List.mem_cons.mp hm with h | h
    · cases h
      simp [hgetKey]
    · have hk0 : k0 ≠ k := by
        intro he
        apply hk0mem
        subst he
        exact List.mem_map_of_mem Prod.fst h
      have hbe : (k0 == k) = false := by
        simpa using hk0
      simp only [hgetKey, hbe]
      simp only [Bool.false_eq_true, if_false]
      exact ih k v hnd'.2 h

mutual

theorem deepEqual_refl : ∀ a : HVal, nodupKeysH a = true → deepEqual a a = true
  | .hnull, _ => by simp [deepEqual]
  | .hundef, _ => by simp [deepEqual]
  | .hbool b, _ => by simp [deepEqual]
  | .hnum n, _ => by simp [deepEqual]
  | .hstr s, _ => by simp [deepEqual]
  | .harr i xs, h => by
    simp [nodupKeysH] at h
    simp [deepEqual]
    exact deepList_refl xs h
  | .hobj i kvs, h => by
    simp [nodupKeysH] at h
    simp [deepEqual]
    exact deepEntries_refl kvs kvs h.1 h.2 (fun k v hm => hgetKey_nodup kvs k v h.1 hm)

theorem deepList_refl : ∀ xs : List HVal, nodupKeysHList xs = true →
    deepList xs xs = true
  | [], _ => by simp [deepList]
  | x :: xs, h => by
    simp [nodupKeysHList] at h
    simp [deepList]
    exact ⟨deepEqual_refl x h.1, deepList_refl xs h.2⟩

theorem deepEntries_refl : ∀ (akvs rest : List (String × HVal)),
    nodupStr (akvs.map Prod.fst) = true → nodupKeysHEntries rest = true →
    (∀ k v, (k, v) ∈ rest → hgetKey akvs k = v) → deepEntries akvs rest = true
  | _, [], _, _, _ => by simp [deepEntries]
  | akvs, (k, v) :: rest, hnd, hr, hget => by
    simp [nodupKeysHEntries] at hr
    simp [deepEntries]
    constructor
    · rw [hget k v (by simp)]
      exact deepEqual_refl v hr.1
    · exact deepEntries_refl akvs rest hnd hr.2
        (fun k' v' hm => hget k' v' (by simp [hm]))

end

mutual

theorem jrepl_cnt_le : ∀ (b : HVal) (cnt : Nat) (a : HVal),
    cnt ≤ (jrepl cnt a b).2
  | b, cnt, a => by
    rw [jrepl.eq_def]
    by_cases hj : jsEq a b = true
    · rw [if_pos hj]
    · rw [if_neg hj]
      cases a <;> cases b <;> try exact Nat.le_refl cnt
      next i axs j bxs =>
        dsimp only
        have h1 := jreplArr_cnt_le bxs cnt axs
        by_cases hc : (axs.length == bxs.length
            && (jreplArr cnt axs bxs).2.1 == axs.length) = true
        · rw [if_pos hc]
          exact h1
        · rw [if_neg hc]
          exact Nat.le_succ_of_le h1
      next i akvs j bkvs =>
        dsimp only
        have h1 := jreplObj_cnt_le bkvs cnt akvs
        by_cases hc : (akvs.length == bkvs.length
            && (jreplObj cnt akvs bkvs).2.1 == akvs.length) = true
        · rw [if_pos hc]
          exact h1
        · rw [if_neg hc]
          exact Nat.le_succ_of_le h1

theorem jreplArr_cnt_le : ∀ (bxs : List HVal) (cnt : Nat) (axs : List HVal),
    cnt ≤ (jreplArr cnt axs bxs).2.2
  | [], cnt, axs => by
    cases axs <;> simp [jreplArr]
  | b :: bs, cnt, [] => by
    rw [jreplArr]
    have h1 := jrepl_cnt_le b cnt HVal.hundef
    have h2 := jreplArr_cnt_le bs (jrepl cnt HVal.hundef b).2 []
    simp only []
    omega
  | b :: bs, cnt, a :: axs => by
    rw [jreplArr]
    have h1 := jrepl_cnt_le b cnt a
    have h2 := jreplArr_cnt_le bs (jrepl cnt a b).2 axs
    simp only []
    omega

theorem jreplObj_cnt_le : ∀ (bkvs : List (String × HVal)) (cnt : Nat)
    (akvs : List (String × HVal)), cnt ≤ (jreplObj cnt akvs bkvs).2.2
  | [], cnt, akvs => by simp [jreplObj]
  | (k, v) :: rest, cnt, akvs => by
    rw [jreplObj]
    have h1 := jrepl_cnt_le v cnt (hgetKey akvs k)
    have h2 := jreplObj_cnt_le rest (jrepl cnt (hgetKey akvs k) v).2 akvs
    simp only []
    omega

end

mutual

theorem idsBelow_mono : ∀ (a : HVal) (n m : Nat), n ≤ m →
    idsBelow n a = true → idsBelow m a = true
  | .hnull, _, _, _, _ => by simp [idsBelow]
  | .hundef, _, _, _, _ => by simp [idsBelow]
  | .hbool _, _, _, _, _ => by simp [idsBelow]
  | .hnum _, _, _, _, _ => by simp [idsBelow]
  | .hstr _, _, _, _, _ => by simp [idsBelow]
  | .harr i xs, n, m, hle, h => by
    simp [idsBelow] at h ⊢
    exact ⟨by omega, idsBelowList_mono xs n m hle h.2⟩
  | .hobj i kvs, n, m, hle, h => by
    simp [idsBelow] at h ⊢
    exact ⟨by omega, idsBelowEntries_mono kvs n m hle h.2⟩

theorem idsBelowList_mono : ∀ (xs : List HVal) (n m : Nat), n ≤ m →
    idsBelowList n xs = true → idsBelowList m xs = true
  | [], _, _, _, _ => by simp [idsBelowList]
  | x :: xs, n, m, hle, h => by
    simp [idsBelowList] at h ⊢
    exact ⟨idsBelow_mono x n m hle h.1, idsBelowList_mono xs n m hle h.2⟩

theorem idsBelowEntries_mono : ∀ (kvs : List (String × HVal)) (n m : Nat), n ≤ m →
    idsBelowEntries n kvs = true → idsBelowEntries m kvs = true
  | [], _, _, _, _ => by simp [idsBelowEntries]
  | (k, v) :: rest, n, m, hle, h => by
    simp [idsBelowEntries] at h ⊢
    exact ⟨idsBelow_mono v n m hle h.1, idsBelowEntries_mono rest n m hle h.2⟩

end

mutual

theorem idsBelow_not_occurs : ∀ (a : HVal) (n m : Nat), n ≤ m →
    idsBelow n a = true → idOccurs m a = false
  | .hnull, _, _, _, _ => by simp [idOccurs]
  | .hundef, _, _, _, _ => by simp [idOccurs]
  | .hbool _, _, _, _, _ => by simp [idOccurs]
  | .hnum _, _, _, _, _ => by simp [idOccurs]
  | .hstr _, _, _, _, _ => by simp [idOccurs]
  | .harr i xs, n, m, hle, h => by
    simp [idsBelow] at h
    simp [idOccurs]
    exact ⟨by omega, idsBelowList_not_occurs xs n m hle h.2⟩
  | .hobj i kvs, n, m, hle, h => by
    simp [idsBelow] at h
    simp [idOccurs]
    exact ⟨by omega, idsBelowEntries_not_occurs kvs n m hle h.2⟩

theorem idsBelowList_not_occurs : ∀ (xs : List HVal) (n m : Nat), n ≤ m →
    idsBelowList n xs = true → idOccursList m xs = false
  | [], _, _, _, _ => by simp [idOccursList]
  | x :: xs, n, m, hle, h => by
    simp [idsBelowList] at h
    simp [idOccursList]
    exact ⟨idsBelow_not_occurs x n m hle h.1, idsBelowList_not_occurs xs n m hle h.2⟩

theorem idsBelowEntries_not_occurs : ∀ (kvs : List (String × HVal)) (n m : Nat),
    n ≤ m → idsBelowEntries n kvs = true → idOccursEntries m kvs = false
  | [], _, _, _, _ => by simp [idOccursEntries]
  | (k, v) :: rest, n, m, hle, h => by
    simp [idsBelowEntries] at h
    simp [idOccursEntries]
    exact ⟨idsBelow_not_occurs v n m hle h.1,
      idsBelowEntries_not_occurs rest n m hle h.2⟩

end



theorem deepList_length : ∀ (axs bxs : List HVal),
    deepList axs bxs = true → axs.length = bxs.length := by
  intro axs
  induction axs with
  | nil => intro bxs h; cases bxs with
    | nil => rfl
    | cons b bs => simp [deepList] at h
  | cons x xs ih =>
    intro bxs h
    cases bxs with
    | nil => simp [deepList] at h
    | cons b bs =>
      simp [deepList] at h
      simp [ih bs h.2]

mutual

/-- When `b` is deeply equal to `a`, `replaceEqualDeep(a, b)` returns `a`
itself and allocates nothing. -/
theorem jrepl_deep : ∀ (b : HVal) (cnt : Nat) (a : HVal),
    deepEqual a b = true → jrepl cnt a b = (a, cnt)
  | .hnull, cnt, a => by
    intro h
    cases a <;> simp [deepEqual] at h
    rw [jrepl.eq_def]
    simp [jsEq]
  | .hundef, cnt, a => by
    intro h
    cases a <;> simp [deepEqual] at h
    rw [jrepl.eq_def]
    simp [jsEq]
  | .hbool b0, cnt, a => by
    intro h
    cases a <;> simp [deepEqual] at h
    case hbool a0 =>
      subst h
      rw [jrepl.eq_def]
      simp [jsEq]
  | .hnum b0, cnt, a => by
    intro h
    cases a <;> simp [deepEqual] at h
    case hnum a0 =>
      subst h
      rw [jrepl.eq_def]
      simp [jsEq]
  | .hstr b0, cnt, a => by
    intro h
    cases a <;> simp [deepEqual] at h
    case hstr a0 =>
      subst h
      rw [jrepl.eq_def]
      simp [jsEq]
  | .harr j bxs, cnt, a => by
    intro h
    cases a <;> simp only [deepEqual] at h
    case harr i axs =>
      have hlen : axs.length = bxs.length := deepList_length axs bxs h
      have hr := jreplArr_deep bxs cnt axs h
      rw [jrepl.eq_def]
      by_cases hj : jsEq (HVal.harr i axs) (HVal.harr j bxs) = true
      · rw [if_pos hj]
      · rw [if_neg hj]
        dsimp only
        rw [hr]
        simp [hlen]
    all_goals exact absurd h (by simp)
  | .hobj j bkvs, cnt, a => by
    intro h
    cases a <;> simp [deepEqual] at h
    case hobj i akvs =>
      obtain ⟨hlen, hde⟩ := h
      have hr := jreplObj_deep bkvs cnt akvs hde
      rw [jrepl.eq_def]
      by_cases hj : jsEq (HVal.hobj i akvs) (HVal.hobj j bkvs) = true
      · rw [if_pos hj]
      · rw [if_neg hj]
        dsimp only
        rw [hr.1, hr.2]
        simp [hlen]

theorem jreplArr_deep : ∀ (bxs : List HVal) (cnt : Nat) (axs : List HVal),
    deepList axs bxs = true → jreplArr cnt axs bxs = (axs, axs.length, cnt)
  | [], cnt, axs => by
    intro h
    cases axs with
    | nil =>
      rw [jreplArr]
      rfl
    | cons x xs => simp [deepList] at h
  | b :: bs, cnt, axs => by
    intro h
    cases axs with
    | nil => simp [deepList] at h
    | cons x xs =>
      simp [deepList] at h
      obtain ⟨h1, h2⟩ := h
      have hx := jrepl_deep b cnt x h1
      have hxs := jreplArr_deep bs cnt xs h2
      rw [jreplArr, hx]
      simp [jsEq_refl, hxs, Nat.add_comm]

theorem jreplObj_deep : ∀ (bkvs : List (String × HVal)) (cnt : Nat)
    (akvs : List (String × HVal)), deepEntries akvs bkvs = true →
    (jreplObj cnt akvs bkvs).2.1 = bkvs.length ∧
      (jreplObj cnt akvs bkvs).2.2 = cnt
  | [], cnt, akvs => by
    intro _
    simp [jreplObj]
  | (k, v) :: rest, cnt, akvs => by
    intro h
    simp only [deepEntries, Bool.and_eq_true] at h
    obtain ⟨h1, h2⟩ := h
    have hv := jrepl_deep v cnt (hgetKey akvs k) h1
    have hrest := jreplObj_deep rest cnt akvs h2
    rw [jreplObj, hv]
    refine ⟨?_, ?_⟩
    · simp [jsEq_refl, hrest.1, Nat.add_comm]
    · simp [hrest.2]

end



theorem subNodes_hgetIdx : ∀ (xs : List HVal) (k : Nat) (x : HVal),
    x ∈ subNodes (hgetIdx xs k) → x ∈ subNodesList xs := by
  intro xs
  induction xs with
  | nil => intro k x hx; simp [hgetIdx, subNodes] at hx
  | cons v vs ih =>
    intro k x hx
    cases k with
    | zero =>
      simp [hgetIdx] at hx
      simp [subNodesList]
      exact Or.inl hx
    | succ n =>
      simp [hgetIdx] at hx
      simp [subNodesList]
      exact Or.inr (ih n x hx)

theorem subNodes_hgetKey : ∀ (kvs : List (String × HVal)) (k : String) (x : HVal),
    x ∈ subNodes (hgetKey kvs k) → x ∈ subNodesEntries kvs := by
  intro kvs
  induction kvs with
  | nil => intro k x hx; simp [hgetKey, subNodes] at hx
  | cons e rest ih =>
    obtain ⟨k0, v0⟩ := e
    intro k x hx
    rw [hgetKey] at hx
    by_cases hk : (k0 == k) = true
    · rw [if_pos hk] at hx
      simp [subNodesEntries]
      exact Or.inl hx
    · rw [if_neg hk] at hx
      simp [subNodesEntries]
      exact Or.inr (ih k x hx)

theorem nodupKeysH_hgetIdx : ∀ (xs : List HVal) (k : Nat),
    nodupKeysHList xs = true → nodupKeysH (hgetIdx xs k) = true := by
  intro xs
  induction xs with
  | nil => intro k _; simp [hgetIdx, nodupKeysH]
  | cons v vs ih =>
    intro k h
    simp [nodupKeysHList] at h
    cases k with
    | zero => simpa [hgetIdx] using h.1
    | succ n => simpa [hgetIdx] using ih n h.2

theorem idsBelow_hgetIdx : ∀ (xs : List HVal) (k n : Nat),
    idsBelowList n xs = true → idsBelow n (hgetIdx xs k) = true := by
  intro xs
  induction xs with
  | nil => intro k n _; simp [hgetIdx, idsBelow]
  | cons v vs ih =>
    intro k n h
    simp [idsBelowList] at h
    cases k with
    | zero => simpa [hgetIdx] using h.1
    | succ m => simpa [hgetIdx] using ih m n h.2

theorem nodupKeysH_hgetKey : ∀ (kvs : List (String × HVal)) (k : String),
    nodupKeysHEntries kvs = true → nodupKeysH (hgetKey kvs k) = true := by
  intro kvs
  induction kvs with
  | nil => intro k _; simp [hgetKey, nodupKeysH]
  | cons e rest ih =>
    obtain ⟨k0, v0⟩ := e
    intro k h
    simp [nodupKeysHEntries] at h
    rw [hgetKey]
    by_cases hk : (k0 == k) = true
    · rw [if_pos hk]
      exact h.1
    · rw [if_neg hk]
      exact ih k h.2

theorem idsBelow_hgetKey : ∀ (kvs : List (String × HVal)) (k : String) (n : Nat),
    idsBelowEntries n kvs = true → idsBelow n (hgetKey kvs k) = true := by
  intro kvs
  induction kvs with
  | nil => intro k n _; simp [hgetKey, idsBelow]
  | cons e rest ih =>
    obtain ⟨k0, v0⟩ := e
    intro k n h
    simp [idsBelowEntries] at h
    rw [hgetKey]
    by_cases hk : (k0 == k) = true
    · rw [if_pos hk]
      exact h.1
    · rw [if_neg hk]
      exact ih k n h.2

theorem consistList_eq : ∀ (l : List HVal) (x y : HVal) (i : Nat),
    consistList l = true → x ∈ l → y ∈ l → idOf x = some i → idOf y = some i →
    x = y := by
  intro l x y i hc hx hy hix hiy
  rw [consistList, List.all_eq_true] at hc
  have h1 := hc x hx
  rw [List.all_eq_true] at h1
  have h2 := h1 y hy
  rw [sameIdEq, hix, hiy] at h2
  simp at h2
  exact (beqH_iff x y).mp h2

theorem jreplArr_count_le : ∀ (bxs : List HVal) (cnt : Nat) (axs : List HVal),
    (jreplArr cnt axs bxs).2.1 ≤ bxs.length := by
  intro bxs
  induction bxs with
  | nil => intro cnt axs; cases axs <;> simp [jreplArr]
  | cons b bs ih =>
    intro cnt axs
    cases axs with
    | nil =>
      rw [jreplArr]
      have h1 := ih (jrepl cnt HVal.hundef b).2 []
      by_cases hj : jsEq (jrepl cnt HVal.hundef b).1 HVal.hundef = true <;>
        simp [hj] <;> omega
    | cons x xs =>
      rw [jreplArr]
      have h1 := ih (jrepl cnt x b).2 xs
      by_cases hj : jsEq (jrepl cnt x b).1 x = true <;>
        simp [hj] <;> omega

theorem jreplObj_count_le : ∀ (bkvs : List (String × HVal)) (cnt : Nat)
    (akvs : List (String × HVal)), (jreplObj cnt akvs bkvs).2.1 ≤ bkvs.length := by
  intro bkvs
  induction bkvs with
  | nil => intro cnt akvs; simp [jreplObj]
  | cons e rest ih =>
    obtain ⟨k, v⟩ := e
    intro cnt akvs
    rw [jreplObj]
    have h1 := ih (jrepl cnt (hgetKey akvs k) v).2 akvs
    by_cases hj : jsEq (jrepl cnt (hgetKey akvs k) v).1 (hgetKey akvs k) = true <;>
      simp [hj] <;> omega

theorem jreplArr_len : ∀ (bxs : List HVal) (cnt : Nat) (axs : List HVal),
    (jreplArr cnt axs bxs).1.length = bxs.length := by
  intro bxs
  induction bxs with
  | nil => intro cnt axs; cases axs <;> simp [jreplArr]
  | cons b bs ih =>
    intro cnt axs
    cases axs with
    | nil =>
      rw [jreplArr]
      simp [ih]
    | cons x xs =>
      rw [jreplArr]
      simp [ih]

theorem jreplObj_len : ∀ (bkvs : List (String × HVal)) (cnt : Nat)
    (akvs : List (String × HVal)), (jreplObj cnt akvs bkvs).1.length = bkvs.length := by
  intro bkvs
  induction bkvs with
  | nil => intro cnt akvs; simp [jreplObj]
  | cons e rest ih =>
    obtain ⟨k, v⟩ := e
    intro cnt akvs
    rw [jreplObj]
    simp [ih]

/-- A child of the rebuilt array at a deeply-equal position is `a`'s child
itself. -/
theorem jreplArr_get_deep : ∀ (bxs : List HVal) (cnt : Nat) (axs : List HVal)
    (k : Nat), k < bxs.length →
    deepEqual (hgetIdx axs k) (hgetIdx bxs k) = true →
    (jreplArr cnt axs bxs).1.get? k = some (hgetIdx axs k) := by
  intro bxs
  induction bxs with
  | nil => intro cnt axs k hk _; simp at hk
  | cons b bs ih =>
    intro cnt axs k hk hde
    simp at hk
    cases axs with
    | nil =>
      rw [jreplArr]
      cases k with
      | zero =>
        rw [jrepl_deep b cnt HVal.hundef
          (show deepEqual HVal.hundef b = true from hde)]
        rfl
      | succ n =>
        exact ih _ [] n (by omega) hde
    | cons x xs =>
      rw [jreplArr]
      cases k with
      | zero =>
        rw [jrepl_deep b cnt x (show deepEqual x b = true from hde)]
        rfl
      | succ n =>
        exact ih _ xs n (by omega) hde

/-- The rebuilt object keeps `b`'s keys in order, and a deeply-equal child
is `a`'s child itself. -/
theorem jreplObj_get : ∀ (bkvs : List (String × HVal)) (cnt : Nat)
    (akvs : List (String × HVal)) (n : Nat) (k : String) (v : HVal),
    bkvs.get? n = some (k, v) →
    ∃ c, (jreplObj cnt akvs bkvs).1.get? n = some (k, c) ∧
      (deepEqual (hgetKey akvs k) v = true → c = hgetKey akvs k) := by
  intro bkvs
  induction bkvs with
  | nil => intro cnt akvs n k v h; simp at h
  | cons e rest ih =>
    obtain ⟨k0, v0⟩ := e
    intro cnt akvs n k v h
    rw [jreplObj]
    cases n with
    | zero =>
      have hkv : (k0, v0) = (k, v) := by simpa using h
      injection hkv with hk hv
      subst hk
      subst hv
      refine ⟨(jrepl cnt (hgetKey akvs k0) v0).1, rfl, fun hde => ?_⟩
      rw [jrepl_deep v0 cnt (hgetKey akvs k0) hde]
    | succ m =>
      exact ih _ akvs m k v h

/-- `===` between values of one consistent heap implies deep equality. -/
theorem jsEq_deepEqual : ∀ (a b : HVal) (pool : List HVal),
    consistList pool = true →
    (∀ x, x ∈ subNodes a → x ∈ pool) → (∀ x, x ∈ subNodes b → x ∈ pool) →
    nodupKeysH a = true → jsEq a b = true → deepEqual a b = true := by
  intro a b pool hc ha hb hna hj
  cases a <;> cases b <;> simp [jsEq] at hj <;>
    try (simp [deepEqual, hj]; done)
  case harr.harr i axs j bxs =>
    subst hj
    have hab : HVal.harr i axs = HVal.harr i bxs :=
      consistList_eq pool _ _ i hc (ha _ (by simp [subNodes]))
        (hb _ (by simp [subNodes])) (by simp [idOf]) (by simp [idOf])
    rw [← hab]
    exact deepEqual_refl _ hna
  case hobj.hobj i akvs j bkvs =>
    subst hj
    have hab : HVal.hobj i akvs = HVal.hobj i bkvs :=
      consistList_eq pool _ _ i hc (ha _ (by simp [subNodes]))
        (hb _ (by simp [subNodes])) (by simp [idOf]) (by simp [idOf])
    rw [← hab]
    exact deepEqual_refl _ hna



mutual

/-- Converse direction: when `replaceEqualDeep(a, b)` returns something
`===` to `a` — for values drawn from one consistent heap whose ids lie
below the allocation counter — `b` was deeply equal to `a`. -/
theorem jrepl_ret : ∀ (b : HVal) (pool : List HVal) (cnt : Nat) (a : HVal),
    consistList pool = true →
    (∀ x, x ∈ subNodes a → x ∈ pool) →
    (∀ x, x ∈ subNodes b → x ∈ pool) →
    nodupKeysH a = true →
    idsBelow cnt a = true →
    jsEq (jrepl cnt a b).1 a = true → deepEqual a b = true
  | .hnull, pool, cnt, a => by
    intro hc ha hb hna hia hr
    by_cases hj : jsEq a HVal.hnull = true
    · exact jsEq_deepEqual a _ pool hc ha hb hna hj
    · rw [jrepl.eq_def, if_neg hj] at hr
      cases a <;> simp [jsEq] at hr hj
  | .hundef, pool, cnt, a => by
    intro hc ha hb hna hia hr
    by_cases hj : jsEq a HVal.hundef = true
    · exact jsEq_deepEqual a _ pool hc ha hb hna hj
    · rw [jrepl.eq_def, if_neg hj] at hr
      cases a <;> simp [jsEq] at hr hj
  | .hbool b0, pool, cnt, a => by
    intro hc ha hb hna hia hr
    by_cases hj : jsEq a (HVal.hbool b0) = true
    · exact jsEq_deepEqual a _ pool hc ha hb hna hj
    · rw [jrepl.eq_def, if_neg hj] at hr
      cases a <;> simp [jsEq] at hr hj <;> exact absurd hr.symm hj
  | .hnum b0, pool, cnt, a => by
    intro hc ha hb hna hia hr
    by_cases hj : jsEq a (HVal.hnum b0) = true
    · exact jsEq_deepEqual a _ pool hc ha hb hna hj
    · rw [jrepl.eq_def, if_neg hj] at hr
      cases a <;> simp [jsEq] at hr hj <;> exact absurd hr.symm hj
  | .hstr b0, pool, cnt, a => by
    intro hc ha hb hna hia hr
    by_cases hj : jsEq a (HVal.hstr b0) = true
    · exact jsEq_deepEqual a _ pool hc ha hb hna hj
    · rw [jrepl.eq_def, if_neg hj] at hr
      cases a <;> simp [jsEq] at hr hj <;> exact absurd hr.symm hj
  | .harr j bxs, pool, cnt, a => by
    intro hc ha hb hna hia hr
    by_cases hj : jsEq a (HVal.harr j bxs) = true
    · exact jsEq_deepEqual a _ pool hc ha hb hna hj
    · rw [jrepl.eq_def, if_neg hj] at hr
      cases a <;> try (simp [jsEq] at hr; done)
      next i axs =>
        dsimp only at hr
        have hna' : nodupKeysHList axs = true := hna
        have hia' : (decide (i < cnt) && idsBelowList cnt axs) = true := hia
        rw [Bool.and_eq_true] at hia'
        have hi : i < cnt := by simpa using hia'.1
        by_cases hcond : (axs.length == bxs.length
            && (jreplArr cnt axs bxs).2.1 == axs.length) = true
        · rw [Bool.and_eq_true] at hcond
          have hlen : axs.length = bxs.length := by simpa using hcond.1
          have hcnt : (jreplArr cnt axs bxs).2.1 = bxs.length := by
            have h2 : (jreplArr cnt axs bxs).2.1 = axs.length := by
              simpa using hcond.2
            omega
          have hdl := jreplArr_ret bxs pool cnt axs hc
            (fun x hx => ha x (List.mem_cons_of_mem _ hx))
            (fun x hx => hb x (List.mem_cons_of_mem _ hx))
            hna' hia'.2 hlen hcnt
          exact hdl
        · rw [if_neg hcond] at hr
          simp [jsEq] at hr
          have hle := jreplArr_cnt_le bxs cnt axs
          omega
  | .hobj j bkvs, pool, cnt, a => by
    intro hc ha hb hna hia hr
    by_cases hj : jsEq a (HVal.hobj j bkvs) = true
    · exact jsEq_deepEqual a _ pool hc ha hb hna hj
    · rw [jrepl.eq_def, if_neg hj] at hr
      cases a <;> try (simp [jsEq] at hr; done)
      next i akvs =>
        dsimp only at hr
        have hna' : (nodupStr (akvs.map Prod.fst) && nodupKeysHEntries akvs) = true := hna
        rw [Bool.and_eq_true] at hna'
        have hia' : (decide (i < cnt) && idsBelowEntries cnt akvs) = true := hia
        rw [Bool.and_eq_true] at hia'
        have hi : i < cnt := by simpa using hia'.1
        by_cases hcond : (akvs.length == bkvs.length
            && (jreplObj cnt akvs bkvs).2.1 == akvs.length) = true
        · rw [Bool.and_eq_true] at hcond
          have hlen : akvs.length = bkvs.length := by simpa using hcond.1
          have hcnt : (jreplObj cnt akvs bkvs).2.1 = bkvs.length := by
            have h2 : (jreplObj cnt akvs bkvs).2.1 = akvs.length := by
              simpa using hcond.2
            omega
          have hde := jreplObj_ret bkvs pool cnt akvs hc
            (fun x hx => ha x (List.mem_cons_of_mem _ hx))
            (fun x hx => hb x (List.mem_cons_of_mem _ hx))
            hna'.2 hia'.2 hcnt
          show (akvs.length == bkvs.length && deepEntries akvs bkvs) = true
          rw [Bool.and_eq_true]
          exact ⟨by simpa using hlen, hde⟩
        · rw [if_neg hcond] at hr
          simp [jsEq] at hr
          have hle := jreplObj_cnt_le bkvs cnt akvs
          omega

theorem jreplArr_ret : ∀ (bxs : List HVal) (pool : List HVal) (cnt : Nat)
    (axs : List HVal),
    consistList pool = true →
    (∀ x, x ∈ subNodesList axs → x ∈ pool) →
    (∀ x, x ∈ subNodesList bxs → x ∈ pool) →
    nodupKeysHList axs = true →
    idsBelowList cnt axs = true →
    axs.length = bxs.length →
    (jreplArr cnt axs bxs).2.1 = bxs.length → deepList axs bxs = true
  | [], pool, cnt, axs => by
    intro hc ha hb hna hia hlen hcount
    cases axs with
    | nil => rfl
    | cons x xs => simp at hlen
  | b :: bs, pool, cnt, axs => by
    intro hc ha hb hna hia hlen hcount
    cases axs with
    | nil => simp at hlen
    | cons x xs =>
      rw [jreplArr] at hcount
      dsimp only at hcount
      simp only [List.length_cons] at hcount hlen
      have hna' : (nodupKeysH x && nodupKeysHList xs) = true := hna
      rw [Bool.and_eq_true] at hna'
      have hia' : (idsBelow cnt x && idsBelowList cnt xs) = true := hia
      rw [Bool.and_eq_true] at hia'
      have hbound := jreplArr_count_le bs (jrepl cnt x b).2 xs
      by_cases hind : jsEq (jrepl cnt x b).1 x = true
      · rw [if_pos hind] at hcount
        have hx := jrepl_ret b pool cnt x hc
          (fun y hy => ha y (List.mem_append_left _ hy))
          (fun y hy => hb y (List.mem_append_left _ hy))
          hna'.1 hia'.1 hind
        have hxs := jreplArr_ret bs pool (jrepl cnt x b).2 xs hc
          (fun y hy => ha y (List.mem_append_right _ hy))
          (fun y hy => hb y (List.mem_append_right _ hy))
          hna'.2
          (idsBelowList_mono xs cnt _ (jrepl_cnt_le b cnt x) hia'.2)
          (by omega) (by omega)
        show (deepEqual x b && deepList xs bs) = true
        rw [Bool.and_eq_true]
        exact ⟨hx, hxs⟩
      · rw [if_neg hind] at hcount
        omega

theorem jreplObj_ret : ∀ (bkvs : List (String × HVal)) (pool : List HVal)
    (cnt : Nat) (akvs : List (String × HVal)),
    consistList pool = true →
    (∀ x, x ∈ subNodesEntries akvs → x ∈ pool) →
    (∀ x, x ∈ subNodesEntries bkvs → x ∈ pool) →
    nodupKeysHEntries akvs = true →
    idsBelowEntries cnt akvs = true →
    (jreplObj cnt akvs bkvs).2.1 = bkvs.length → deepEntries akvs bkvs = true
  | [], pool, cnt, akvs => by
    intro hc ha hb hna hia hcount
    rfl
  | (k, v) :: rest, pool, cnt, akvs => by
    intro hc ha hb hna hia hcount
    rw [jreplObj] at hcount
    dsimp only at hcount
    simp only [List.length_cons] at hcount
    have hbound := jreplObj_count_le rest (jrepl cnt (hgetKey akvs k) v).2 akvs
    by_cases hind : jsEq (jrepl cnt (hgetKey akvs k) v).1 (hgetKey akvs k) = true
    · rw [if_pos hind] at hcount
      have hv := jrepl_ret v pool cnt (hgetKey akvs k) hc
        (fun y hy => ha y (subNodes_hgetKey akvs k y hy))
        (fun y hy => hb y (List.mem_append_left _ hy))
        (nodupKeysH_hgetKey akvs k hna)
        (idsBelow_hgetKey akvs k cnt hia) hind
      have hrest := jreplObj_ret rest pool (jrepl cnt (hgetKey akvs k) v).2 akvs hc
        ha
        (fun y hy => hb y (List.mem_append_right _ hy))
        hna
        (idsBelowEntries_mono akvs cnt _ (jrepl_cnt_le v cnt (hgetKey akvs k)) hia)
        (by omega)
      show (deepEqual (hgetKey akvs k) v && deepEntries akvs rest) = true
      rw [Bool.and_eq_true]
      exact ⟨hv, hrest⟩
    · rw [if_neg hind] at hcount
      omega

end



/-- C1: under default options (`isDataEqual` undefined, `structuralSharing`
neither `false` nor a function) `replaceData` returns `prev` itself, with
no allocation, whenever `next` is deeply equal to `prev`; `replaceEqualDeep`
likewise returns `prev` itself on deeply equal values; and otherwise — for
plain arrays and plain objects of one consistent heap (`pairWF`), with
duplicate-free object keys and all ids below the allocation counter — it
returns a new container (its id occurs nowhere in `prev` or `next`) of
`next`'s size in which every deeply-equal child keeps the identity of the
corresponding child of `prev`. -/
theorem claim1_structural_sharing :
    (∀ (cnt : Nat) (prev next : HVal), deepEqual prev next = true →
      replaceData cnt defaultReplOptions prev next = (prev, cnt)) ∧
    (∀ (cnt : Nat) (prev next : HVal), deepEqual prev next = true →
      jrepl cnt prev next = (prev, cnt)) ∧
    (∀ (cnt i : Nat) (axs : List HVal) (j : Nat) (bxs : List HVal),
      deepEqual (HVal.harr i axs) (HVal.harr j bxs) = false →
      pairWF (HVal.harr i axs) (HVal.harr j bxs) = true →
      nodupKeysH (HVal.harr i axs) = true →
      idsBelow cnt (HVal.harr i axs) = true →
      idsBelow cnt (HVal.harr j bxs) = true →
      ∃ nid cs,
        jrepl cnt (HVal.harr i axs) (HVal.harr j bxs) = (HVal.harr nid cs, nid + 1) ∧
        idOccurs nid (HVal.harr i axs) = false ∧
        idOccurs nid (HVal.harr j bxs) = false ∧
        cs.length = bxs.length ∧
        (∀ k : Nat, k < bxs.length →
          deepEqual (hgetIdx axs k) (hgetIdx bxs k) = true →
          cs.get? k = some (hgetIdx axs k))) ∧
    (∀ (cnt i : Nat) (akvs : List (String × HVal)) (j : Nat)
        (bkvs : List (String × HVal)),
      deepEqual (HVal.hobj i akvs) (HVal.hobj j bkvs) = false →
      pairWF (HVal.hobj i akvs) (HVal.hobj j bkvs) = true →
      nodupKeysH (HVal.hobj i akvs) = true →
      idsBelow cnt (HVal.hobj i akvs) = true →
      idsBelow cnt (HVal.hobj j bkvs) = true →
      ∃ nid cs,
        jrepl cnt (HVal.hobj i akvs) (HVal.hobj j bkvs) = (HVal.hobj nid cs, nid + 1) ∧
        idOccurs nid (HVal.hobj i akvs) = false ∧
        idOccurs nid (HVal.hobj j bkvs) = false ∧
        cs.length = bkvs.length ∧
        (∀ (n : Nat) (k : String) (v : HVal), bkvs.get? n = some (k, v) →
          ∃ c, cs.get? n = some (k, c) ∧
            (deepEqual (hgetKey akvs k) v = true → c = hgetKey akvs k))) := by
  refine ⟨?_, ?_, ?_, ?_⟩
  · intro cnt prev next h
    exact jrepl_deep next cnt prev h
  · intro cnt prev next h
    exact jrepl_deep next cnt prev h
  · intro cnt i axs j bxs hne hwf hna hia hib
    have hc : consistList
        (subNodes (HVal.harr i axs) ++ subNodes (HVal.harr j bxs)) = true := hwf
    have hj : ¬ jsEq (HVal.harr i axs) (HVal.harr j bxs) = true := by
      intro hjs
      have hd := jsEq_deepEqual _ _ _ hc (fun x hx => List.mem_append_left _ hx)
        (fun x hx => List.mem_append_right _ hx) hna hjs
      rw [hne] at hd
      exact Bool.false_ne_true hd
    have hna' : nodupKeysHList axs = true := hna
    have hia' : (decide (i < cnt) && idsBelowList cnt axs) = true := hia
    rw [Bool.and_eq_true] at hia'
    have hcond : ¬ (axs.length == bxs.length
        && (jreplArr cnt axs bxs).2.1 == axs.length) = true := by
      intro hcond
      rw [Bool.and_eq_true] at hcond
      have hlen : axs.length = bxs.length := by simpa using hcond.1
      have hcnt : (jreplArr cnt axs bxs).2.1 = bxs.length := by
        have h2 : (jreplArr cnt axs bxs).2.1 = axs.length := by simpa using hcond.2
        omega
      have hdl := jreplArr_ret bxs _ cnt axs hc
        (fun x hx => List.mem_append_left _ (List.mem_cons_of_mem _ hx))
        (fun x hx => List.mem_append_right _ (List.mem_cons_of_mem _ hx))
        hna' hia'.2 hlen hcnt
      have hd : deepEqual (HVal.harr i axs) (HVal.harr j bxs) = true := hdl
      rw [hne] at hd
      exact Bool.false_ne_true hd
    refine ⟨(jreplArr cnt axs bxs).2.2, (jreplArr cnt axs bxs).1, ?_, ?_, ?_, ?_, ?_⟩
    · rw [jrepl.eq_def, if_neg hj]
      dsimp only
      rw [if_neg hcond]
    · exact idsBelow_not_occurs _ cnt _ (jreplArr_cnt_le bxs cnt axs) hia
    · exact idsBelow_not_occurs _ cnt _ (jreplArr_cnt_le bxs cnt axs) hib
    · exact jreplArr_len bxs cnt axs
    · intro k hk hde
      exact jreplArr_get_deep bxs cnt axs k hk hde
  · intro cnt i akvs j bkvs hne hwf hna hia hib
    have hc : consistList
        (subNodes (HVal.hobj i akvs) ++ subNodes (HVal.hobj j bkvs)) = true := hwf
    have hj : ¬ jsEq (HVal.hobj i akvs) (HVal.hobj j bkvs) = true := by
      intro hjs
      have hd := jsEq_deepEqual _ _ _ hc (fun x hx => List.mem_append_left _ hx)
        (fun x hx => List.mem_append_right _ hx) hna hjs
      rw [hne] at hd
      exact Bool.false_ne_true hd
    have hna' : (nodupStr (akvs.map Prod.fst) && nodupKeysHEntries akvs) = true := hna
    rw [Bool.and_eq_true] at hna'
    have hia' : (decide (i < cnt) && idsBelowEntries cnt akvs) = true := hia
    rw [Bool.and_eq_true] at hia'
    have hcond : ¬ (akvs.length == bkvs.length
        && (jreplObj cnt akvs bkvs).2.1 == akvs.length) = true := by
      intro hcond
      rw [Bool.and_eq_true] at hcond
      have hlen : akvs.length = bkvs.length := by simpa using hcond.1
      have hcnt : (jreplObj cnt akvs bkvs).2.1 = bkvs.length := by
        have h2 : (jreplObj cnt akvs bkvs).2.1 = akvs.length := by simpa using hcond.2
        omega
      have hent := jreplObj_ret bkvs _ cnt akvs hc
        (fun x hx => List.mem_append_left _ (List.mem_cons_of_mem _ hx))
        (fun x hx => List.mem_append_right _ (List.mem_cons_of_mem _ hx))
        hna'.2 hia'.2 hcnt
      have hd : deepEqual (HVal.hobj i akvs) (HVal.hobj j bkvs) = true := by
        show (akvs.length == bkvs.length && deepEntries akvs bkvs) = true
        rw [Bool.and_eq_true]
        exact ⟨by simpa using hlen, hent⟩
      rw [hne] at hd
      exact Bool.false_ne_true hd
    refine ⟨(jreplObj cnt akvs bkvs).2.2, (jreplObj cnt akvs bkvs).1, ?_, ?_, ?_, ?_, ?_⟩
    · rw [jrepl.eq_def, if_neg hj]
      dsimp only
      rw [if_neg hcond]
    · exact idsBelow_not_occurs _ cnt _ (jreplObj_cnt_le bkvs cnt akvs) hia
    · exact idsBelow_not_occurs _ cnt _ (jreplObj_cnt_le bkvs cnt akvs) hib
    · exact jreplObj_len bkvs cnt akvs
    · intro n k v hget
      exact jreplObj_get bkvs cnt akvs n k v hget

/-- Witness for C1 at concrete heaps: a deeply equal object is returned
by reference; a changed array and a grown object are rebuilt with a fresh
id while the unchanged children keep their identity. -/
theorem claim1_structural_sharing_witness :
    (deepEqual (HVal.hobj 0 [("a", HVal.hnum 1)])
        (HVal.hobj 1 [("a", HVal.hnum 1)]) = true ∧
      replaceData 2 defaultReplOptions (HVal.hobj 0 [("a", HVal.hnum 1)])
        (HVal.hobj 1 [("a", HVal.hnum 1)]) = (HVal.hobj 0 [("a", HVal.hnum 1)], 2)) ∧
    (jrepl 2 (HVal.hobj 0 [("a", HVal.hnum 1)]) (HVal.hobj 1 [("a", HVal.hnum 1)])
        = (HVal.hobj 0 [("a", HVal.hnum 1)], 2)) ∧
    (deepEqual (HVal.harr 0 [HVal.hnum 1, HVal.hnum 2])
        (HVal.harr 1 [HVal.hnum 1, HVal.hnum 3]) = false ∧
      ∃ nid cs,
        jrepl 2 (HVal.harr 0 [HVal.hnum 1, HVal.hnum 2])
            (HVal.harr 1 [HVal.hnum 1, HVal.hnum 3]) = (HVal.harr nid cs, nid + 1) ∧
        idOccurs nid (HVal.harr 0 [HVal.hnum 1, HVal.hnum 2]) = false ∧
        idOccurs nid (HVal.harr 1 [HVal.hnum 1, HVal.hnum 3]) = false ∧
        cs.length = [HVal.hnum 1, HVal.hnum 3].length ∧
        (∀ k : Nat, k < [HVal.hnum 1, HVal.hnum 3].length →
          deepEqual (hgetIdx [HVal.hnum 1, HVal.hnum 2] k)
              (hgetIdx [HVal.hnum 1, HVal.hnum 3] k) = true →
          cs.get? k = some (hgetIdx [HVal.hnum 1, HVal.hnum 2] k))) ∧
    (deepEqual (HVal.hobj 0 [("a", HVal.hnum 1)])
        (HVal.hobj 1 [("a", HVal.hnum 1), ("b", HVal.hnum 2)]) = false ∧
      ∃ nid cs,
        jrepl 2 (HVal.hobj 0 [("a", HVal.hnum 1)])
            (HVal.hobj 1 [("a", HVal.hnum 1), ("b", HVal.hnum 2)])
          = (HVal.hobj nid cs, nid + 1) ∧
        idOccurs nid (HVal.hobj 0 [("a", HVal.hnum 1)]) = false ∧
        idOccurs nid (HVal.hobj 1 [("a", HVal.hnum 1), ("b", HVal.hnum 2)]) = false ∧
        cs.length = [("a", HVal.hnum 1), ("b", HVal.hnum 2)].length ∧
        (∀ (n : Nat) (k : String) (v : HVal),
          [("a", HVal.hnum 1), ("b", HVal.hnum 2)].get? n = some (k, v) →
          ∃ c, cs.get? n = some (k, c) ∧
            (deepEqual (hgetKey [("a", HVal.hnum 1)] k) v = true →
              c = hgetKey [("a", HVal.hnum 1)] k))) :=
  ⟨⟨by decide, claim1_structural_sharing.1 2 _ _ (by decide)⟩,
   claim1_structural_sharing.2.1 2 _ _ (by decide),
   ⟨by decide, claim1_structural_sharing.2.2.1 2 0 _ 1 _ (by decide) (by decide)
     (by decide) (by decide) (by decide)⟩,
   ⟨by decide, claim1_structural_sharing.2.2.2 2 0 _ 1 _ (by decide) (by decide)
     (by decide) (by decide) (by decide)⟩⟩


end Merapi
